import Mathlib

/-!
# Plain codec of parquet-go (`parquet/encoding/plain.go`)

A shallow embedding of the plain decoder and encoder and of the bit-width
helper, followed by the properties established about them.

Conventions of the embedding

* A byte is a `Fin 256`; a byte stream is a `List Byte`.
* The `io.Reader` a decoder is bound to and the `io.Writer` an encoder writes
  to are both an in-memory `bytes.Buffer`: the decoder's reader is the list of
  bytes not yet consumed, the encoder's writer is the list of bytes written so
  far.  The library calls the codec makes on them (`Buffer.Read`,
  `Buffer.Write`, `io.ReadFull`, `binary.Read`, `binary.Write`,
  `binary.LittleEndian`) are modelled after their documented behaviour.
  Where the kind of reader matters (the single `Read` of a byte-array payload),
  `DecodeByteArrayOn` takes the reader's `Read` as a parameter: `bufRead` is
  that of a `bytes.Buffer`, `readerRead` that of a `bytes.Reader`.
* `int32` / `int64` values are integers; conversions from the unsigned word
  read off the wire are the two's-complement reinterpretation.  Go `int` is
  64 bits wide and its addition wraps (`wrapInt`).
* `float32` / `float64` values are represented by their IEEE-754 bit pattern
  (`math.Float32frombits` / `math.Float64frombits` of the word read).
* A Go call either returns or panics: `Outcome`.
-/

namespace encoding

/-! ## Bytes, errors, outcomes -/

abbrev Byte := Fin 256

/-- The format strings of the `fmt.Errorf` calls of `plain.go`, in source order. -/
inductive Msg where
  | expectedInt32      -- "expected %d int32 but got only %d: %s"
  | expectedInt64      -- "expected %d int64 but got only %d: %s"
  | shortRead          -- "plain decoder: short read: %s"
  | binaryRead         -- "plain decoder: binary.Read: %s"
  | writeLen           -- "could not write byte array len: %s"
  | writeBytes         -- "could not write byte array: %s"
  deriving DecidableEq

/-- Go `error` values that occur in the codec. -/
inductive Error where
  | EOF                                   -- io.EOF
  | ErrUnexpectedEOF                      -- io.ErrUnexpectedEOF
  | invalidType                           -- binary.Write: data is not fixed-size
  | other (code : Nat)                    -- an error raised by a collaborator
  | errorf (msg : Msg) (args : List Nat) (cause : Error)   -- fmt.Errorf(msg, args..., cause)
  deriving DecidableEq

/-- Run-time panics the codec can raise. -/
inductive Panic where
  | indexOutOfRange        -- out[i] with i >= len(out)
  | makesliceLenOutOfRange -- make([]byte, size) with size < 0
  deriving DecidableEq

/-- What a decode call hands back: the returned count and error, the
destination slice after the call and the bytes left in the reader. -/
structure Ret (α : Type) where
  count : Nat
  err : Option Error
  out : List α
  r : List Byte
  deriving DecidableEq

/-- A call either returns or panics. -/
inductive Outcome (α : Type) where
  | returned (ret : Ret α)
  | panicked (p : Panic)
  deriving DecidableEq

/-! ## The library calls made by the codec -/

/-- `(*bytes.Buffer).Read(p)` with `len(p) = n`: on an empty buffer it returns
`(0, nil)` when `n = 0` and `(0, io.EOF)` otherwise; else it copies
`min(n, available)` bytes and returns no error.  Result: the bytes read
(`p[:n']`), the error, the buffer afterwards. -/
def bufRead (r : List Byte) (n : Nat) : List Byte × Option Error × List Byte :=
  if r = [] then
    if n = 0 then ([], none, []) else ([], some Error.EOF, [])
  else (r.take n, none, r.drop n)

/-- `io.ReadFull(r, buf)` with `len(buf) = n` over a `bytes.Buffer`: reads
exactly `n` bytes, or fails with `io.EOF` when nothing could be read and with
`io.ErrUnexpectedEOF` when the buffer ran dry part-way (the bytes it did read
are consumed). -/
def ReadFull (r : List Byte) (n : Nat) : Except Error (List Byte) × List Byte :=
  if n ≤ r.length then (Except.ok (r.take n), r.drop n)
  else if r = [] then (Except.error Error.EOF, [])
  else (Except.error Error.ErrUnexpectedEOF, [])

/-- `binary.LittleEndian.Uint32(b)`:
`uint32(b[0]) | uint32(b[1])<<8 | uint32(b[2])<<16 | uint32(b[3])<<24`. -/
def Uint32 (b : List Byte) : Nat :=
  (b.getD 0 0).val ||| (b.getD 1 0).val <<< 8 ||| (b.getD 2 0).val <<< 16
    ||| (b.getD 3 0).val <<< 24

/-- `binary.LittleEndian.Uint64(b)`. -/
def Uint64 (b : List Byte) : Nat :=
  (b.getD 0 0).val ||| (b.getD 1 0).val <<< 8 ||| (b.getD 2 0).val <<< 16
    ||| (b.getD 3 0).val <<< 24 ||| (b.getD 4 0).val <<< 32 ||| (b.getD 5 0).val <<< 40
    ||| (b.getD 6 0).val <<< 48 ||| (b.getD 7 0).val <<< 56

/-- Go conversion `byte(v)`. -/
def byte (v : Nat) : Byte := Fin.ofNat v

/-- `binary.LittleEndian.PutUint32(b, v)`: the four bytes stored. -/
def PutUint32 (v : Nat) : List Byte :=
  [byte v, byte (v >>> 8), byte (v >>> 16), byte (v >>> 24)]

/-- `binary.LittleEndian.PutUint64(b, v)`: the eight bytes stored. -/
def PutUint64 (v : Nat) : List Byte :=
  [byte v, byte (v >>> 8), byte (v >>> 16), byte (v >>> 24),
   byte (v >>> 32), byte (v >>> 40), byte (v >>> 48), byte (v >>> 56)]

/-- Go conversion `int32(u)` of a `uint32`. -/
def toInt32 (u : Nat) : Int := if u < 2 ^ 31 then (u : Int) else (u : Int) - 2 ^ 32

/-- Go conversion `int64(u)` of a `uint64`. -/
def toInt64 (u : Nat) : Int := if u < 2 ^ 63 then (u : Int) else (u : Int) - 2 ^ 64

/-- Go conversion `uint32(x)` of an `int32`. -/
def toUint32 (x : Int) : Nat := (x % 2 ^ 32).toNat

/-- Go conversion `uint64(x)` of an `int64`. -/
def toUint64 (x : Int) : Nat := (x % 2 ^ 64).toNat

/-- `binary.Read(r, binary.LittleEndian, &value)` for `value int32`:
`io.ReadFull` of 4 bytes, then `int32(order.Uint32(bs))`. -/
def binaryReadInt32 (r : List Byte) : Except Error Int × List Byte :=
  match ReadFull r 4 with
  | (Except.error e, r1) => (Except.error e, r1)
  | (Except.ok bs, r1) => (Except.ok (toInt32 (Uint32 bs)), r1)

/-- `binary.Read(r, binary.LittleEndian, &value)` for `value int64`. -/
def binaryReadInt64 (r : List Byte) : Except Error Int × List Byte :=
  match ReadFull r 8 with
  | (Except.error e, r1) => (Except.error e, r1)
  | (Except.ok bs, r1) => (Except.ok (toInt64 (Uint64 bs)), r1)

/-- `binary.Read(r, binary.LittleEndian, &value)` for `value float32`:
`math.Float32frombits(order.Uint32(bs))`, the value being kept as its bits. -/
def binaryReadFloat32 (r : List Byte) : Except Error Nat × List Byte :=
  match ReadFull r 4 with
  | (Except.error e, r1) => (Except.error e, r1)
  | (Except.ok bs, r1) => (Except.ok (Uint32 bs), r1)

/-- `binary.Read(r, binary.LittleEndian, &value)` for `value float64`. -/
def binaryReadFloat64 (r : List Byte) : Except Error Nat × List Byte :=
  match ReadFull r 8 with
  | (Except.error e, r1) => (Except.error e, r1)
  | (Except.ok bs, r1) => (Except.ok (Uint64 bs), r1)

/-- The dynamic type and value of the `data` argument of `binary.Write`, for
the types `plain.go` passes. -/
inductive Data where
  | int (n : Int)               -- Go `int` (what `len(b)` is)
  | int32s (v : List Int)       -- []int32
  | int64s (v : List Int)       -- []int64
  | bytes (b : List Byte)       -- []byte
  | bools (v : List Bool)       -- []bool
  | float32s (v : List Nat)     -- []float32, each value as its bits
  | float64s (v : List Nat)     -- []float64, each value as its bits

/-- `binary.Write(w, binary.LittleEndian, data)` into a `bytes.Buffer`.  Slices
of fixed-size integers are written element by element, little-endian; a Go
`int` is not a fixed-size value and is rejected with an error before anything
is written.  A `bool` is written as one byte, 1 or 0 (Go 1.8 and later), a float
as the little-endian bytes of `math.Float32bits` / `math.Float64bits`.
Result: the error and the buffer afterwards. -/
def binaryWrite (w : List Byte) : Data → Option Error × List Byte
  | Data.int _ => (some Error.invalidType, w)
  | Data.int32s v => (none, w ++ (v.map (fun x => PutUint32 (toUint32 x))).flatten)
  | Data.int64s v => (none, w ++ (v.map (fun x => PutUint64 (toUint64 x))).flatten)
  | Data.bytes b => (none, w ++ b)
  | Data.bools v => (none, w ++ v.map (fun b => if b then 1 else 0))
  | Data.float32s v => (none, w ++ (v.map (fun x => PutUint32 (x % 2 ^ 32))).flatten)
  | Data.float64s v => (none, w ++ (v.map (fun x => PutUint64 (x % 2 ^ 64))).flatten)

/-! ## Bit width -/

/-- The loop of `trailingZeros`: `for mask&i != mask { mask >>= 1; count++ }`.
`fuel` bounds the number of times the body may run; `none` when it is used up. -/
def trailingZerosLoop (i : Nat) : Nat → Nat → Nat → Option Nat
  | fuel, mask, count =>
    if mask &&& i ≠ mask then
      match fuel with
      | 0 => none
      | fuel + 1 => trailingZerosLoop i fuel (mask >>> 1) ((count + 1) % 2 ^ 32)
    else some count

/-- `trailingZeros(i uint32) uint32`, the loop started at `mask = 1 << 31`,
`count = 0` and allowed 32 runs of its body. -/
def trailingZeros (i : Nat) : Option Nat := trailingZerosLoop i 32 (2 ^ 31) 0

/-- `GetBitWidthFromMaxInt(i uint32) uint`: `uint(32 - trailingZeros(i))`, the
subtraction being that of `uint32`. -/
def GetBitWidthFromMaxInt (i : Nat) : Option Nat :=
  (trailingZeros i).map (fun c => (32 + 2 ^ 32 - c) % 2 ^ 32)

/-- The number of leading zero bits of `i` in its 32-bit representation, as the
specification words it: the bits 31, 30, ..., 0 are scanned from the top and
the zeros before the first one are counted. -/
def countLeadingZeroBits (i : Nat) : Nat :=
  (((List.range 32).reverse.map (fun k => i.testBit k)).takeWhile (fun b => !b)).length

/-- `min(a, b uint) uint`. -/
def min (a b : Nat) : Nat := if a > b then b else a

/-! ## The plain decoder -/

/-- `type plainDecoder struct { r io.Reader; count uint }`. -/
structure plainDecoder where
  r : List Byte
  count : Nat

/-- `NewPlainDecoder(r, numValues)`. -/
def NewPlainDecoder (r : List Byte) (numValues : Nat) : plainDecoder := ⟨r, numValues⟩

/-- The decode loop shared in shape by the four fixed-width operations:
```
for i := uint(0); i < bound; i++ {
    err := binary.Read(d.r, binary.LittleEndian, &value)
    if err != nil { return onErr(i), fmt.Errorf(msg, args(i)..., err) }
    out[i] = value
}
return count, nil
```
`rd` is the `binary.Read` of the value type, `onErr i e` the pair returned when
it fails in iteration `i`, `k` the number of iterations still to run
(`bound - i`).  The store `out[i] = value` panics when `i` is not an index of
`out`. -/
def fixedLoop {α : Type} (rd : List Byte → Except Error α × List Byte)
    (onErr : Nat → Error → Nat × Error) (count : Nat) :
    Nat → Nat → List Byte → List α → Outcome α
  | 0, _, r, out => Outcome.returned ⟨count, none, out, r⟩
  | k + 1, i, r, out =>
    match rd r with
    | (Except.error e, r1) => Outcome.returned ⟨(onErr i e).1, some (onErr i e).2, out, r1⟩
    | (Except.ok value, r1) =>
      if i < out.length then fixedLoop rd onErr count k (i + 1) r1 (out.set i value)
      else Outcome.panicked Panic.indexOutOfRange

/-- `DecodeInt32`: the loop runs to `count`; on a failed read it returns
`i, fmt.Errorf("expected %d int32 but got only %d: %s", count, i, err)`. -/
def DecodeInt32 (d : plainDecoder) (out : List Int) : Outcome Int :=
  fixedLoop binaryReadInt32
    (fun i e => (i, Error.errorf Msg.expectedInt32 [d.count, i] e))
    d.count d.count 0 d.r out

/-- `DecodeInt64`: the loop runs to `min(count, uint(len(out)))`; on a failed
read it returns `i, fmt.Errorf("expected %d int64 but got only %d: %s", ...)`;
after the loop it returns `count, nil`. -/
def DecodeInt64 (d : plainDecoder) (out : List Int) : Outcome Int :=
  fixedLoop binaryReadInt64
    (fun i e => (i, Error.errorf Msg.expectedInt64 [d.count, i] e))
    d.count (min d.count out.length) 0 d.r out

/-- `DecodeFloat32`: bound `min(count, uint(len(out)))`; on a failed read it
returns `i, fmt.Errorf("plain decoder: binary.Read: %s", err)`. -/
def DecodeFloat32 (d : plainDecoder) (out : List Nat) : Outcome Nat :=
  fixedLoop binaryReadFloat32
    (fun i e => (i, Error.errorf Msg.binaryRead [] e))
    d.count (min d.count out.length) 0 d.r out

/-- `DecodeFloat64`: bound `min(count, uint(len(out)))`; on a failed read it
returns `0, fmt.Errorf("plain decoder: binary.Read: %s", err)`. -/
def DecodeFloat64 (d : plainDecoder) (out : List Nat) : Outcome Nat :=
  fixedLoop binaryReadFloat64
    (fun _ e => (0, Error.errorf Msg.binaryRead [] e))
    d.count (min d.count out.length) 0 d.r out

/-- The loop of `DecodeByteArray`, `k` iterations still to run:
```
err := binary.Read(d.r, binary.LittleEndian, &size)   // size int32
if err != nil { return 0, err }
p := make([]byte, size)
n, err := d.r.Read(p)
if err != nil { return i, fmt.Errorf("plain decoder: short read: %s", err) }
out[i] = p[:n]
```
-/
def byteArrayLoop (count : Nat) :
    Nat → Nat → List Byte → List (List Byte) → Outcome (List Byte)
  | 0, _, r, out => Outcome.returned ⟨count, none, out, r⟩
  | k + 1, i, r, out =>
    match binaryReadInt32 r with
    | (Except.error e, r1) => Outcome.returned ⟨0, some e, out, r1⟩
    | (Except.ok size, r1) =>
      if size < 0 then Outcome.panicked Panic.makesliceLenOutOfRange
      else
        match bufRead r1 size.toNat with
        | (_, some e, r2) =>
          Outcome.returned ⟨i, some (Error.errorf Msg.shortRead [] e), out, r2⟩
        | (p, none, r2) =>
          if i < out.length then byteArrayLoop count k (i + 1) r2 (out.set i p)
          else Outcome.panicked Panic.indexOutOfRange

/-- `DecodeByteArray`: the loop runs to `min(count, uint(len(out)))` and the
call then returns `count, nil`. -/
def DecodeByteArray (d : plainDecoder) (out : List (List Byte)) : Outcome (List Byte) :=
  byteArrayLoop d.count (min d.count out.length) 0 d.r out

/-- `(*bytes.Reader).Read(p)` with `len(p) = n` (Go 1.7 and later): at the end
of the data it returns `(0, io.EOF)` whatever `n` is; otherwise it copies
`min(n, available)` bytes and returns no error.  Result as for `bufRead`. -/
def readerRead (r : List Byte) (n : Nat) : List Byte × Option Error × List Byte :=
  if r = [] then ([], some Error.EOF, [])
  else (r.take n, none, r.drop n)

/-- The loop of `DecodeByteArray` over any in-memory `io.Reader`: `read` is the
`Read` method of `d.r`, used for the payload (`n, err := d.r.Read(p)`); the
length prefix goes through `binary.Read`, hence `io.ReadFull`, which behaves
alike on a `bytes.Buffer` and a `bytes.Reader`.  The body is that of
`byteArrayLoop`. -/
def byteArrayLoopOn (read : List Byte → Nat → List Byte × Option Error × List Byte)
    (count : Nat) : Nat → Nat → List Byte → List (List Byte) → Outcome (List Byte)
  | 0, _, r, out => Outcome.returned ⟨count, none, out, r⟩
  | k + 1, i, r, out =>
    match binaryReadInt32 r with
    | (Except.error e, r1) => Outcome.returned ⟨0, some e, out, r1⟩
    | (Except.ok size, r1) =>
      if size < 0 then Outcome.panicked Panic.makesliceLenOutOfRange
      else
        match read r1 size.toNat with
        | (_, some e, r2) =>
          Outcome.returned ⟨i, some (Error.errorf Msg.shortRead [] e), out, r2⟩
        | (p, none, r2) =>
          if i < out.length then byteArrayLoopOn read count k (i + 1) r2 (out.set i p)
          else Outcome.panicked Panic.indexOutOfRange

/-- `DecodeByteArray` on a decoder whose reader has the `Read` method `read`. -/
def DecodeByteArrayOn (read : List Byte → Nat → List Byte × Option Error × List Byte)
    (d : plainDecoder) (out : List (List Byte)) : Outcome (List Byte) :=
  byteArrayLoopOn read d.count (min d.count out.length) 0 d.r out

/-- A Go slice of `uint64`: its backing array (whose length is the capacity)
and its length. -/
structure Slice where
  array : List Nat
  len : Nat

/-- The copy loop of `DecodeBool`:
`for i := 0; i < len(outx) && i < len(out); i++ { out[i] = outx[i] != 0 }`,
`k` bounding the iterations still to run. -/
def boolLoop (outx : Slice) : Nat → Nat → List Bool → List Bool
  | 0, _, out => out
  | k + 1, i, out =>
    if i < outx.len ∧ i < out.length then
      boolLoop outx k (i + 1) (out.set i (outx.array.getD i 0 != 0))
    else out

/-- `DecodeBool`.  The hybrid RLE/bit-packing decoder lives in another package
and is a parameter: `hybridRead r outx bitWidth` is
`rle.NewHybridBitPackingRLEDecoder(r).Read(outx, bitWidth)` and yields the
error it returns, the contents it leaves in the backing array of `outx` and the
bytes it leaves in the reader.  `outx` is `make([]uint64, 0, d.count)` and is
passed by value, so the callee can fill the backing array but the caller's
slice keeps the length it was made with. -/
def DecodeBool (hybridRead : List Byte → Slice → Nat → Option Error × List Nat × List Byte)
    (d : plainDecoder) (out : List Bool) : Ret Bool :=
  let outx : Slice := ⟨List.replicate d.count 0, 0⟩
  match hybridRead d.r outx 1 with
  | (some err, _, r1) => ⟨0, some err, out, r1⟩
  | (none, array1, r1) =>
    let outx1 : Slice := ⟨array1, outx.len⟩
    ⟨outx1.len, none, boolLoop outx1 outx1.len 0 out, r1⟩

/-! ## The plain encoder -/

/-- Go `int` arithmetic on a 64-bit build: the result of an addition reduced
to the two's-complement range `-2^63 .. 2^63 - 1`. -/
def wrapInt (x : Int) : Int :=
  (x + 9223372036854775808) % 18446744073709551616 - 9223372036854775808

/-- `type plainEncoder struct { numValues int }`. -/
structure plainEncoder where
  numValues : Int
  deriving DecidableEq

/-- `NewPlainEncoder()`. -/
def NewPlainEncoder : plainEncoder := ⟨0⟩

/-- `WriteInt32(w, v)`: `e.numValues += len(v)` (an `int` addition, which
wraps), then `binary.Write(w, binary.LittleEndian, v)`.  Result: the encoder,
the error, the writer. -/
def WriteInt32 (e : plainEncoder) (w : List Byte) (v : List Int) :
    plainEncoder × Option Error × List Byte :=
  (⟨wrapInt (e.numValues + v.length)⟩, binaryWrite w (Data.int32s v))

/-- `WriteInt64(w, v)`. -/
def WriteInt64 (e : plainEncoder) (w : List Byte) (v : List Int) :
    plainEncoder × Option Error × List Byte :=
  (⟨wrapInt (e.numValues + v.length)⟩, binaryWrite w (Data.int64s v))

/-- The `range` loop of `WriteByteArray`:
```
err := binary.Write(w, binary.LittleEndian, len(b))
if err != nil { return fmt.Errorf("could not write byte array len: %s", err) }
err = binary.Write(w, binary.LittleEndian, b)
if err != nil { return fmt.Errorf("could not write byte array: %s", err) }
```
-/
def writeByteArrayLoop : List (List Byte) → List Byte → Option Error × List Byte
  | [], w => (none, w)
  | b :: rest, w =>
    match binaryWrite w (Data.int b.length) with
    | (some err, w1) => (some (Error.errorf Msg.writeLen [] err), w1)
    | (none, w1) =>
      match binaryWrite w1 (Data.bytes b) with
      | (some err, w2) => (some (Error.errorf Msg.writeBytes [] err), w2)
      | (none, w2) => writeByteArrayLoop rest w2

/-- `WriteByteArray(w, v)`: `e.numValues += len(v)`, then the loop. -/
def WriteByteArray (e : plainEncoder) (w : List Byte) (v : List (List Byte)) :
    plainEncoder × Option Error × List Byte :=
  (⟨wrapInt (e.numValues + v.length)⟩, writeByteArrayLoop v w)

/-- `WriteBool(w, v)`. -/
def WriteBool (e : plainEncoder) (w : List Byte) (v : List Bool) :
    plainEncoder × Option Error × List Byte :=
  (⟨wrapInt (e.numValues + v.length)⟩, binaryWrite w (Data.bools v))

/-- `WriteFloat32(w, v)`. -/
def WriteFloat32 (e : plainEncoder) (w : List Byte) (v : List Nat) :
    plainEncoder × Option Error × List Byte :=
  (⟨wrapInt (e.numValues + v.length)⟩, binaryWrite w (Data.float32s v))

/-- `WriteFloat64(w, v)`. -/
def WriteFloat64 (e : plainEncoder) (w : List Byte) (v : List Nat) :
    plainEncoder × Option Error × List Byte :=
  (⟨wrapInt (e.numValues + v.length)⟩, binaryWrite w (Data.float64s v))

/-- `Flush()`: `return nil`.  Result: the encoder and the error. -/
def Flush (p : plainEncoder) : plainEncoder × Option Error := (p, none)

/-- `NumValues()`: `return p.numValues`. -/
def NumValues (p : plainEncoder) : Int := p.numValues

/-- Modelled from the spec: the encoding tags are declared in package `thrift`,
which is not among the sources; the standardized tag of the plain encoding
(`thrift.Encoding_PLAIN`) is 0 in the storage format. -/
def Encoding_PLAIN : Int := 0

/-- `Type()`: `return thrift.Encoding_PLAIN` (`Type` itself is reserved in Lean). -/
def Type_ (_p : plainEncoder) : Int := Encoding_PLAIN

/-- One call of a `Write` method of the encoder, with the slice it is given. -/
inductive WriteCall where
  | WriteBool (v : List Bool)
  | WriteInt32 (v : List Int)
  | WriteInt64 (v : List Int)
  | WriteFloat32 (v : List Nat)
  | WriteFloat64 (v : List Nat)
  | WriteByteArray (v : List (List Byte))

/-- The length of the slice a call is given. -/
def WriteCall.len : WriteCall → Nat
  | WriteCall.WriteBool v => v.length
  | WriteCall.WriteInt32 v => v.length
  | WriteCall.WriteInt64 v => v.length
  | WriteCall.WriteFloat32 v => v.length
  | WriteCall.WriteFloat64 v => v.length
  | WriteCall.WriteByteArray v => v.length

/-- Performing one call on an encoder and a writer. -/
def WriteCall.apply (e : plainEncoder) (w : List Byte) :
    WriteCall → plainEncoder × Option Error × List Byte
  | WriteCall.WriteBool v => encoding.WriteBool e w v
  | WriteCall.WriteInt32 v => encoding.WriteInt32 e w v
  | WriteCall.WriteInt64 v => encoding.WriteInt64 e w v
  | WriteCall.WriteFloat32 v => encoding.WriteFloat32 e w v
  | WriteCall.WriteFloat64 v => encoding.WriteFloat64 e w v
  | WriteCall.WriteByteArray v => encoding.WriteByteArray e w v

/-- A sequence of calls performed one after the other on the same encoder and
writer, whatever error each call returns. -/
def runWrites : plainEncoder → List Byte → List WriteCall → plainEncoder × List Byte
  | e, w, [] => (e, w)
  | e, w, c :: cs => runWrites (c.apply e w).1 (c.apply e w).2.2 cs

/-- A stand-in for the hybrid decoder's `Read` used to run `DecodeBool` on a
concrete input: it succeeds, stores 1 in every slot of the backing array it is
handed and consumes the whole source. -/
def allOnesHybridRead (_r : List Byte) (outx : Slice) (_bitWidth : Nat) :
    Option Error × List Nat × List Byte :=
  (none, List.replicate outx.array.length 1, [])

/-! ## The wire format as the specification words it -/

/-- The 4-byte little-endian representation of a length. -/
def lengthLE (n : Nat) : List Byte :=
  [byte (n % 256), byte (n / 256 % 256), byte (n / 65536 % 256), byte (n / 16777216 % 256)]

/-- A byte-array page body: for each element in order its 4-byte little-endian
length followed by its raw bytes, no terminator. -/
def byteArrayPage (bs : List (List Byte)) : List Byte :=
  (bs.map (fun b => lengthLE b.length ++ b)).flatten

/-- The two's-complement little-endian value of four bytes. -/
def int32LE (b0 b1 b2 b3 : Byte) : Int :=
  let u := b0.val + 256 * b1.val + 65536 * b2.val + 16777216 * b3.val
  if u < 2147483648 then (u : Int) else (u : Int) - 4294967296

/-- The values held by the first `k` groups of `w` bytes of `r`, `f` turning a
group into a value. -/
def chunkValues {α : Type} (f : List Byte → α) (w : Nat) : Nat → List Byte → List α
  | 0, _ => []
  | k + 1, r => f (r.take w) :: chunkValues f w k (r.drop w)

/-- The error `io.ReadFull` reports on a buffer too short for the request. -/
def eofError (r : List Byte) : Error :=
  if r = [] then Error.EOF else Error.ErrUnexpectedEOF

/-- A reader that takes `w` bytes with `io.ReadFull` and converts them with `f`. -/
def IsFixedRead {α : Type} (rd : List Byte → Except Error α × List Byte)
    (w : Nat) (f : List Byte → α) : Prop :=
  (∀ r, w ≤ r.length → rd r = (Except.ok (f (r.take w)), r.drop w))
    ∧ (∀ r, r.length < w → rd r = (Except.error (eofError r), []))

end encoding

/-! # Column scanner of parquet-go (`parquet/column.go`)

The scanner owns an `io.ReadSeeker` and reads page headers with
`parquetformat.PageHeader.Read`.  Neither the reader nor package
`parquetformat` is among the sources: the reader is represented by its cursor,
and what `Seek` and `header.Read` do is supplied by a `Source`.  `log.Printf`
has no effect on the scanner and is left out. -/

namespace parquet

open encoding (Error)

/-- Modelled from the spec: `parquetformat.PageType` is declared in package
`parquetformat`, which is not among the sources.  It is an integer enumeration
whose four declared values are those of the storage format; a parsed header
can carry any other integer. -/
abbrev PageType := Int

/-- `parquetformat.PageType_DATA_PAGE`. -/
def PageType_DATA_PAGE : PageType := 0

/-- `parquetformat.PageType_INDEX_PAGE`. -/
def PageType_INDEX_PAGE : PageType := 1

/-- `parquetformat.PageType_DICTIONARY_PAGE`. -/
def PageType_DICTIONARY_PAGE : PageType := 2

/-- `parquetformat.PageType_DATA_PAGE_V2`. -/
def PageType_DATA_PAGE_V2 : PageType := 3

/-- Modelled from the spec: `parquetformat.DataPageHeader`, the sub-header of a
data page: the value count, the value encoding and the encodings of the
definition and repetition levels. -/
structure DataPageHeader where
  NumValues : Int
  Encoding : Int
  DefinitionLevelEncoding : Int
  RepetitionLevelEncoding : Int
  deriving DecidableEq

/-- Modelled from the spec: `parquetformat.PageHeader`: the page type, the two
sizes, the optional checksum and the optional data-page sub-header (a pointer
in Go, `none` when nil).  The three other sub-headers are only handed to
`log.Printf` by `nextPage` and are left out.  `Type_` is the field `Type`. -/
structure PageHeader where
  Type_ : PageType
  UncompressedPageSize : Int
  CompressedPageSize : Int
  Crc : Option Int
  DataPageHeader : Option DataPageHeader
  deriving DecidableEq

/-- What the collaborators of a scanner do.  `Seek offset` is
`s.r.Seek(offset, os.SEEK_SET)`: the new cursor, or the error.  `headerRead pos`
is `header.Read(r)` with the cursor at `pos`: the header parsed or the error,
and the cursor afterwards. -/
structure Source where
  Seek : Int → Except Error Nat
  headerRead : Nat → Except Error PageHeader × Nat

/-- `type ColumnScanner struct { r io.ReadSeeker; chunk *ColumnChunk; err error }`:
the cursor of `r`, the field `chunk.MetaData.DataPageOffset` and the error
slot (`none` for nil). -/
structure ColumnScanner where
  r : Nat
  DataPageOffset : Int
  err : Option Error
  deriving DecidableEq

/-- `NewColumnScanner(r, chunk)`: `&ColumnScanner{r, chunk, nil}`, `pos` being
the cursor of the reader handed in. -/
def NewColumnScanner (pos : Nat) (DataPageOffset : Int) : ColumnScanner :=
  ⟨pos, DataPageOffset, none⟩

/-- `setErr(err)`: `if s.err == nil || s.err == io.EOF { s.err = err }`. -/
def setErr (s : ColumnScanner) (err : Option Error) : ColumnScanner :=
  if s.err = none ∨ s.err = some Error.EOF then { s with err := err } else s

/-- `Err()`: `if s.err == io.EOF { return nil }; return s.err`. -/
def Err (s : ColumnScanner) : Option Error :=
  if s.err = some Error.EOF then none else s.err

/-- Run-time panics of the scanner. -/
inductive ScanPanic where
  | unsupportedPageHeaderType     -- panic("Unsupported PageHeader.Type")
  | nilPointerDereference         -- header.DataPageHeader.NumValues on a nil sub-header
  deriving DecidableEq

/-- A call on the scanner returns a value or panics; either way the scanner is
left in some state. -/
inductive Result (α : Type) where
  | returned (value : α) (s : ColumnScanner)
  | panicked (p : ScanPanic) (s : ColumnScanner)
  deriving DecidableEq

/-- The scanner a call leaves behind. -/
def Result.state {α : Type} : Result α → ColumnScanner
  | Result.returned _ s => s
  | Result.panicked _ s => s

/-- `nextPage()`, `debug` being `Config.Debug`:
```
err = header.Read(r)
if err != nil { return err }
if Config.Debug {
    ... log.Printf ...
    switch header.Type {
    case PageType_DATA_PAGE:       ... header.DataPageHeader.NumValues ...
    case PageType_INDEX_PAGE:      ...
    case PageType_DICTIONARY_PAGE: ...
    case PageType_DATA_PAGE_V2:    ...
    default: panic("Unsupported PageHeader.Type")
    }
}
return nil
```
-/
def nextPage (debug : Bool) (src : Source) (s : ColumnScanner) : Result (Option Error) :=
  match src.headerRead s.r with
  | (Except.error err, pos) => Result.returned (some err) { s with r := pos }
  | (Except.ok header, pos) =>
    if debug then
      if header.Type_ = PageType_DATA_PAGE then
        match header.DataPageHeader with
        | none => Result.panicked ScanPanic.nilPointerDereference { s with r := pos }
        | some _ => Result.returned none { s with r := pos }
      else if header.Type_ = PageType_INDEX_PAGE then
        Result.returned none { s with r := pos }
      else if header.Type_ = PageType_DICTIONARY_PAGE then
        Result.returned none { s with r := pos }
      else if header.Type_ = PageType_DATA_PAGE_V2 then
        Result.returned none { s with r := pos }
      else Result.panicked ScanPanic.unsupportedPageHeaderType { s with r := pos }
    else Result.returned none { s with r := pos }

/-- The loop of `Scan`:
`for { if err := s.nextPage(); err != nil { s.setErr(err); return false } }`.
`fuel` bounds the number of calls of `nextPage`; `none` when it is used up. -/
def scanLoop (debug : Bool) (src : Source) : Nat → ColumnScanner → Option (Result Bool)
  | 0, _ => none
  | fuel + 1, s =>
    match nextPage debug src s with
    | Result.panicked p s1 => some (Result.panicked p s1)
    | Result.returned (some err) s1 => some (Result.returned false (setErr s1 (some err)))
    | Result.returned none s1 => scanLoop debug src fuel s1

/-- `Scan()`:
```
_, err := s.r.Seek(s.chunk.MetaData.DataPageOffset, os.SEEK_SET)
if err != nil { s.setErr(err); return false }
for { ... }
```
-/
def Scan (debug : Bool) (src : Source) (fuel : Nat) (s : ColumnScanner) :
    Option (Result Bool) :=
  match src.Seek s.DataPageOffset with
  | Except.error err => some (Result.returned false (setErr s (some err)))
  | Except.ok pos => scanLoop debug src fuel { s with r := pos }

/-- The states a scanner can be brought to by later operations: `setErr` with
any error, and `Scan` under either value of `Config.Debug` (the state it
returns with, or panics in).  `Err` does not change the scanner. -/
inductive Later (src : Source) : ColumnScanner → ColumnScanner → Prop where
  | refl (s : ColumnScanner) : Later src s s
  | setErr (s t : ColumnScanner) (err : Option Error) : Later src s t →
      Later src s (parquet.setErr t err)
  | Scan (s t : ColumnScanner) (debug : Bool) (fuel : Nat) (res : Result Bool) :
      Later src s t → parquet.Scan debug src fuel t = some res → Later src s res.state

/-- The states a scanner made by `NewColumnScanner` is brought to by calls of
`Scan`, `Config.Debug` keeping one value throughout (the state a call returns
with, or panics in).  `setErr` is unexported and called by `Scan` alone; `Err`
does not change the scanner. -/
inductive Reachable (debug : Bool) (src : Source) : ColumnScanner → Prop where
  | fresh (pos : Nat) (off : Int) : Reachable debug src (NewColumnScanner pos off)
  | Scan (s : ColumnScanner) (fuel : Nat) (res : Result Bool) :
      Reachable debug src s → parquet.Scan debug src fuel s = some res →
      Reachable debug src res.state

/-- The states later operations bring a scanner to, `Config.Debug` keeping one
value throughout: `setErr` with any error, and `Scan`.  `Err` does not change
the scanner. -/
inductive Afterwards (debug : Bool) (src : Source) : ColumnScanner → ColumnScanner → Prop where
  | refl (s : ColumnScanner) : Afterwards debug src s s
  | setErr (s t : ColumnScanner) (err : Option Error) : Afterwards debug src s t →
      Afterwards debug src s (parquet.setErr t err)
  | Scan (s t : ColumnScanner) (fuel : Nat) (res : Result Bool) :
      Afterwards debug src s t → parquet.Scan debug src fuel t = some res →
      Afterwards debug src s res.state

/-- `AcceptedPages debug src off k p q`: starting with the cursor at `p`, `k`
successive calls of `nextPage` on a scanner with an empty error slot each
return nil, and leave the cursor at `q`. -/
inductive AcceptedPages (debug : Bool) (src : Source) (off : Int) : Nat → Nat → Nat → Prop where
  | nil (p : Nat) : AcceptedPages debug src off 0 p p
  | cons (k p p1 q : Nat) :
      nextPage debug src ⟨p, off, none⟩ = Result.returned none ⟨p1, off, none⟩ →
      AcceptedPages debug src off k p1 q → AcceptedPages debug src off (k + 1) p q

/-- A one-page column chunk starting at offset 4: a data-page header occupying
bytes 4..19 that declares a body of `bodySize` bytes holding `bodySize / 4`
plain int32 values, the body, then the end of the file.  `Seek` succeeds; `header.Read` parses the header at offset 4 and
reports `io.EOF` at the end of the file. -/
def onePageChunk (bodySize : Nat) : Source where
  Seek := fun offset => Except.ok offset.toNat
  headerRead := fun pos =>
    if pos = 4 then
      (Except.ok ⟨PageType_DATA_PAGE, bodySize, bodySize, none,
        some ⟨bodySize / 4, 0, 3, 3⟩⟩, 20)
    else if pos = 20 + bodySize then (Except.error Error.EOF, pos)
    else (Except.error (Error.other 1), pos)

/-- A chunk whose first header, at offset 0, carries the page type 9 and is
followed at offset 10 by bytes `header.Read` rejects with an error. -/
def unknownTypeChunk : Source where
  Seek := fun offset => Except.ok offset.toNat
  headerRead := fun pos =>
    if pos = 0 then (Except.ok ⟨9, 0, 0, none, none⟩, 10)
    else (Except.error (Error.other 1), pos)

/-- A reader on which every `Seek` fails with the given error. -/
def failingSeek (err : Error) : Source where
  Seek := fun _ => Except.error err
  headerRead := fun pos => (Except.error (Error.other 2), pos)

end parquet

namespace encoding

/-! ## Properties -/

theorem two_pow_and_ne_iff (i p : Nat) : (2 ^ p &&& i ≠ 2 ^ p) ↔ i.testBit p = false := by
  rw [Nat.two_pow_and]
  cases h : i.testBit p
  · simpa using (Nat.two_pow_pos p).ne
  · simp

theorem trailingZerosLoop_zero_mask (i fuel c : Nat) :
    trailingZerosLoop i fuel 0 c = some c := by
  unfold trailingZerosLoop
  simp

theorem trailingZerosLoop_two_pow (i : Nat) :
    ∀ p fuel c, p < fuel → c + (p + 1) < 2 ^ 32 →
      trailingZerosLoop i fuel (2 ^ p) c
        = some (c + (((List.range (p + 1)).reverse.map (fun k => i.testBit k)).takeWhile
            (fun b => !b)).length) := by
  intro p
  induction p with
  | zero =>
    intro fuel c hf hc
    cases fuel with
    | zero => omega
    | succ fuel =>
      unfold trailingZerosLoop
      cases hb : i.testBit 0
      · have h1 : (2 ^ 0 &&& i ≠ 2 ^ 0) := (two_pow_and_ne_iff i 0).2 hb
        rw [if_pos h1]
        have h2 : (2 ^ 0 >>> 1) = 0 := by decide
        have h3 : (c + 1) % 2 ^ 32 = c + 1 := Nat.mod_eq_of_lt (by omega)
        simp only [h2, h3, trailingZerosLoop_zero_mask]
        simp [hb, List.range_succ]
      · have h1 : ¬ (2 ^ 0 &&& i ≠ 2 ^ 0) := by
          rw [two_pow_and_ne_iff]; simp [hb]
        rw [if_neg h1]
        simp [hb, List.range_succ]
  | succ p ih =>
    intro fuel c hf hc
    cases fuel with
    | zero => omega
    | succ fuel =>
      unfold trailingZerosLoop
      rw [List.range_succ, List.reverse_append]
      cases hb : i.testBit (p + 1)
      · have h1 : (2 ^ (p + 1) &&& i ≠ 2 ^ (p + 1)) := (two_pow_and_ne_iff i (p + 1)).2 hb
        rw [if_pos h1]
        have h2 : (2 ^ (p + 1) >>> 1) = 2 ^ p := by
          rw [Nat.shiftRight_eq_div_pow, pow_succ]; simp
        have h3 : (c + 1) % 2 ^ 32 = c + 1 := Nat.mod_eq_of_lt (by omega)
        simp only [h2, h3]
        rw [ih fuel (c + 1) (by omega) (by omega)]
        simp [hb]
        omega
      · have h1 : ¬ (2 ^ (p + 1) &&& i ≠ 2 ^ (p + 1)) := by
          rw [two_pow_and_ne_iff]; simp [hb]
        rw [if_neg h1]
        simp [hb]

theorem countLeadingZeroBits_le (i : Nat) : countLeadingZeroBits i ≤ 32 := by
  unfold countLeadingZeroBits
  refine le_trans (List.takeWhile_sublist _).length_le ?_
  simp

theorem trailingZeros_eq (i : Nat) : trailingZeros i = some (countLeadingZeroBits i) := by
  unfold trailingZeros countLeadingZeroBits
  rw [trailingZerosLoop_two_pow i 31 32 0 (by omega) (by norm_num)]
  simp

/-- C3. For every 32-bit unsigned `i`, `GetBitWidthFromMaxInt i` is 32 minus the
number of leading zero bits of `i`; it is 0 at 0, 1 at 1, 8 at 255 and 9 at 256. -/
theorem GetBitWidthFromMaxInt_eq_sub_leading_zeros (i : Nat) :
    GetBitWidthFromMaxInt i = some (32 - countLeadingZeroBits i)
      ∧ GetBitWidthFromMaxInt 0 = some 0
      ∧ GetBitWidthFromMaxInt 1 = some 1
      ∧ GetBitWidthFromMaxInt 255 = some 8
      ∧ GetBitWidthFromMaxInt 256 = some 9 := by
  refine ⟨?_, by decide, by decide, by decide, by decide⟩
  have hle := countLeadingZeroBits_le i
  unfold GetBitWidthFromMaxInt
  rw [trailingZeros_eq]
  simp only [Option.map_some']
  congr 1
  omega


theorem byte_val (v : Nat) : (byte v).val = v % 256 := by
  simp [byte, Fin.ofNat]

theorem or_shiftLeft_eq_add (x y k : Nat) (h : x < 2 ^ k) : x ||| y <<< k = x + y * 2 ^ k := by
  rw [Nat.shiftLeft_eq, Nat.or_comm, Nat.mul_comm y, ← Nat.mul_add_lt_is_or h]
  omega

theorem Uint32_eq (b : List Byte) :
    Uint32 b = (b.getD 0 0).val + 256 * (b.getD 1 0).val + 65536 * (b.getD 2 0).val
      + 16777216 * (b.getD 3 0).val := by
  have h0 := (b.getD 0 0).isLt
  have h1 := (b.getD 1 0).isLt
  have h2 := (b.getD 2 0).isLt
  have h3 := (b.getD 3 0).isLt
  unfold Uint32
  rw [or_shiftLeft_eq_add _ _ 8 (by omega), or_shiftLeft_eq_add _ _ 16 (by omega),
    or_shiftLeft_eq_add _ _ 24 (by omega)]
  omega

theorem Uint64_eq (b : List Byte) :
    Uint64 b
      = (b.getD 0 0).val + 2 ^ 8 * (b.getD 1 0).val + 2 ^ 16 * (b.getD 2 0).val
        + 2 ^ 24 * (b.getD 3 0).val + 2 ^ 32 * (b.getD 4 0).val + 2 ^ 40 * (b.getD 5 0).val
        + 2 ^ 48 * (b.getD 6 0).val + 2 ^ 56 * (b.getD 7 0).val := by
  have h0 := (b.getD 0 0).isLt
  have h1 := (b.getD 1 0).isLt
  have h2 := (b.getD 2 0).isLt
  have h3 := (b.getD 3 0).isLt
  have h4 := (b.getD 4 0).isLt
  have h5 := (b.getD 5 0).isLt
  have h6 := (b.getD 6 0).isLt
  have h7 := (b.getD 7 0).isLt
  unfold Uint64
  rw [or_shiftLeft_eq_add _ _ 8 (by omega), or_shiftLeft_eq_add _ _ 16 (by omega),
    or_shiftLeft_eq_add _ _ 24 (by omega), or_shiftLeft_eq_add _ _ 32 (by omega),
    or_shiftLeft_eq_add _ _ 40 (by omega), or_shiftLeft_eq_add _ _ 48 (by omega),
    or_shiftLeft_eq_add _ _ 56 (by omega)]
  omega

theorem Uint32_PutUint32 (v : Nat) (h : v < 2 ^ 32) : Uint32 (PutUint32 v) = v := by
  unfold PutUint32
  rw [Uint32_eq]
  simp only [List.getD_cons_zero, List.getD_cons_succ, byte_val, Nat.shiftRight_eq_div_pow]
  omega

theorem Uint64_PutUint64 (v : Nat) (h : v < 2 ^ 64) : Uint64 (PutUint64 v) = v := by
  unfold PutUint64
  rw [Uint64_eq]
  simp only [List.getD_cons_zero, List.getD_cons_succ, byte_val, Nat.shiftRight_eq_div_pow]
  omega

theorem toInt32_toUint32 (x : Int) (h1 : -2 ^ 31 ≤ x) (h2 : x < 2 ^ 31) :
    toInt32 (toUint32 x) = x := by
  unfold toInt32 toUint32
  split <;> omega

theorem toInt64_toUint64 (x : Int) (h1 : -2 ^ 63 ≤ x) (h2 : x < 2 ^ 63) :
    toInt64 (toUint64 x) = x := by
  unfold toInt64 toUint64
  split <;> omega

theorem toUint32_lt (x : Int) : toUint32 x < 2 ^ 32 := by
  unfold toUint32
  omega

theorem toUint64_lt (x : Int) : toUint64 x < 2 ^ 64 := by
  unfold toUint64
  omega

theorem isFixedRead_of_ReadFull {α : Type} (w : Nat) (f : List Byte → α)
    (rd : List Byte → Except Error α × List Byte)
    (h : ∀ r, rd r = match ReadFull r w with
      | (Except.error e, r1) => (Except.error e, r1)
      | (Except.ok bs, r1) => (Except.ok (f bs), r1)) :
    IsFixedRead rd w f := by
  constructor
  · intro r hr
    rw [h, ReadFull, if_pos hr]
  · intro r hr
    rw [h, ReadFull, if_neg (by omega)]
    unfold eofError
    by_cases hr0 : r = []
    · simp [hr0]
    · simp [hr0]

theorem isFixedRead_int32 : IsFixedRead binaryReadInt32 4 (fun bs => toInt32 (Uint32 bs)) :=
  isFixedRead_of_ReadFull 4 _ _ (fun _ => rfl)

theorem isFixedRead_int64 : IsFixedRead binaryReadInt64 8 (fun bs => toInt64 (Uint64 bs)) :=
  isFixedRead_of_ReadFull 8 _ _ (fun _ => rfl)

theorem isFixedRead_float32 : IsFixedRead binaryReadFloat32 4 Uint32 :=
  isFixedRead_of_ReadFull 4 _ _ (fun _ => rfl)

theorem isFixedRead_float64 : IsFixedRead binaryReadFloat64 8 Uint64 :=
  isFixedRead_of_ReadFull 8 _ _ (fun _ => rfl)

theorem take_succ_set {α : Type} (l : List α) (i : Nat) (v : α) (h : i < l.length) :
    (l.set i v).take (i + 1) = l.take i ++ [v] := by
  apply List.ext_getElem?
  intro j
  simp only [List.getElem?_take, List.getElem?_set, List.getElem?_append, List.length_take]
  have hmin : Nat.min i l.length = i := Nat.min_eq_left (by omega)
  by_cases h1 : j < i
  · simp [h1, show j < i + 1 by omega, show ¬ i = j by omega, hmin]
  · by_cases h2 : j = i
    · subst h2
      simp [h, hmin]
    · simp [h1, show ¬ j < i + 1 by omega, hmin, show ¬ j - i = 0 by omega]
      omega

theorem fixedLoop_ok {α : Type} (rd : List Byte → Except Error α × List Byte)
    (w : Nat) (f : List Byte → α) (hrd : IsFixedRead rd w f)
    (onErr : Nat → Error → Nat × Error) (count : Nat) :
    ∀ k i r out, w * k ≤ r.length → i + k ≤ out.length →
      fixedLoop rd onErr count k i r out
        = Outcome.returned
            ⟨count, none, out.take i ++ chunkValues f w k r ++ out.drop (i + k), r.drop (w * k)⟩ := by
  intro k
  induction k with
  | zero =>
    intro i r out _ _
    simp [fixedLoop, chunkValues]
  | succ k ih =>
    intro i r out hr ho
    have hw : w ≤ r.length := by
      have : w * (k + 1) = w * k + w := by ring
      omega
    have hi : i < out.length := by omega
    unfold fixedLoop
    rw [hrd.1 r hw]
    simp only [if_pos hi]
    rw [ih (i + 1) (r.drop w) (out.set i (f (r.take w)))
      (by rw [List.length_drop]; have : w * (k + 1) = w * k + w := by ring
          omega)
      (by rw [List.length_set]; omega)]
    rw [take_succ_set _ _ _ hi, List.drop_set_of_lt _ _ (by omega), List.drop_drop]
    simp [chunkValues, Nat.mul_succ, Nat.add_comm, Nat.add_left_comm, Nat.add_assoc]

theorem fixedLoop_short {α : Type} (rd : List Byte → Except Error α × List Byte)
    (w : Nat) (f : List Byte → α) (hrd : IsFixedRead rd w f)
    (onErr : Nat → Error → Nat × Error) (count : Nat) :
    ∀ m k i r out, w * m ≤ r.length → r.length < w * (m + 1) → m < k →
      i + m ≤ out.length →
      fixedLoop rd onErr count k i r out
        = Outcome.returned
            ⟨(onErr (i + m) (eofError (r.drop (w * m)))).1,
             some (onErr (i + m) (eofError (r.drop (w * m)))).2,
             out.take i ++ chunkValues f w m r ++ out.drop (i + m), []⟩ := by
  intro m
  induction m with
  | zero =>
    intro k i r out _ hr hk _
    cases k with
    | zero => omega
    | succ k =>
      unfold fixedLoop
      rw [hrd.2 r (by omega)]
      simp [chunkValues]
  | succ m ih =>
    intro k i r out hr1 hr2 hk ho
    cases k with
    | zero => omega
    | succ k =>
      have e1 : w * (m + 1) = w * m + w := by ring
      have e2 : w * (m + 1 + 1) = w * m + w + w := by ring
      have hw : w ≤ r.length := by omega
      have hi : i < out.length := by omega
      unfold fixedLoop
      rw [hrd.1 r hw]
      simp only [if_pos hi]
      rw [ih k (i + 1) (r.drop w) (out.set i (f (r.take w)))
        (by rw [List.length_drop]; omega)
        (by rw [List.length_drop]
            have : w * (m + 1) = w * m + w := by ring
            omega)
        (by omega)
        (by rw [List.length_set]; omega)]
      rw [take_succ_set _ _ _ hi, List.drop_set_of_lt _ _ (by omega), List.drop_drop]
      have e3 : w + w * m = w * (m + 1) := by ring
      have e4 : i + 1 + m = i + (m + 1) := by ring
      simp [chunkValues, e3, e4]

theorem length_chunkValues {α : Type} (f : List Byte → α) (w : Nat) :
    ∀ k r, (chunkValues f w k r).length = k := by
  intro k
  induction k with
  | zero => intro r; rfl
  | succ k ih => intro r; simp [chunkValues, ih]

theorem getElem?_chunkValues {α : Type} (f : List Byte → α) (w : Nat) :
    ∀ k r j, j < k → (chunkValues f w k r)[j]? = some (f ((r.drop (w * j)).take w)) := by
  intro k
  induction k with
  | zero => intro r j hj; omega
  | succ k ih =>
    intro r j hj
    cases j with
    | zero => simp [chunkValues]
    | succ j =>
      simp only [chunkValues, List.getElem?_cons_succ]
      rw [ih (r.drop w) j (by omega), List.drop_drop]
      have : w + w * j = w * (j + 1) := by ring
      rw [this]

theorem chunkValues_flatten {α : Type} (f : List Byte → α) (w : Nat) (enc : α → List Byte) :
    ∀ vs : List α, (∀ v ∈ vs, (enc v).length = w ∧ f (enc v) = v) →
      chunkValues f w vs.length (vs.map enc).flatten = vs := by
  intro vs
  induction vs with
  | nil => intro _; rfl
  | cons v vs ih =>
    intro h
    have hv := h v (List.mem_cons_self v vs)
    simp only [List.map_cons, List.flatten_cons, List.length_cons, chunkValues]
    rw [List.take_left' hv.1, List.drop_left' hv.1, hv.2,
      ih (fun x hx => h x (List.mem_cons_of_mem v hx))]

theorem length_flatten_map {α : Type} (w : Nat) (enc : α → List Byte) :
    ∀ vs : List α, (∀ v ∈ vs, (enc v).length = w) →
      ((vs.map enc).flatten).length = w * vs.length := by
  intro vs
  induction vs with
  | nil => intro _; simp
  | cons v vs ih =>
    intro h
    simp only [List.map_cons, List.flatten_cons, List.length_append, List.length_cons]
    rw [ih (fun x hx => h x (List.mem_cons_of_mem v hx)), h v (List.mem_cons_self v vs)]
    ring

theorem toInt32_Uint32_group (r : List Byte) (i : Nat) :
    toInt32 (Uint32 ((r.drop (4 * i)).take 4))
      = int32LE (r.getD (4 * i) 0) (r.getD (4 * i + 1) 0) (r.getD (4 * i + 2) 0)
          (r.getD (4 * i + 3) 0) := by
  rw [Uint32_eq]
  simp only [List.getD_eq_getElem?_getD, List.getElem?_take, List.getElem?_drop]
  simp [toInt32, int32LE]

theorem DecodeInt32_eq_of_enough (n : Nat) (r : List Byte) (out : List Int)
    (hr : 4 * n ≤ r.length) (ho : n ≤ out.length) :
    DecodeInt32 (NewPlainDecoder r n) out
      = Outcome.returned
          ⟨n, none, chunkValues (fun bs => toInt32 (Uint32 bs)) 4 n r ++ out.drop n,
           r.drop (4 * n)⟩ := by
  unfold DecodeInt32 NewPlainDecoder
  simp only
  rw [fixedLoop_ok _ 4 _ isFixedRead_int32 _ n n 0 r out hr (by omega)]
  simp

theorem DecodeInt64_eq_of_enough (n : Nat) (r : List Byte) (out : List Int)
    (hr : 8 * min n out.length ≤ r.length) :
    DecodeInt64 (NewPlainDecoder r n) out
      = Outcome.returned
          ⟨n, none,
           chunkValues (fun bs => toInt64 (Uint64 bs)) 8 (min n out.length) r
             ++ out.drop (min n out.length),
           r.drop (8 * min n out.length)⟩ := by
  have hm : min n out.length ≤ out.length := by
    unfold min; split <;> omega
  unfold DecodeInt64 NewPlainDecoder
  simp only
  rw [fixedLoop_ok _ 8 _ isFixedRead_int64 _ n (min n out.length) 0 r out hr (by omega)]
  simp

theorem DecodeInt32_eq_of_short (n : Nat) (r : List Byte) (out : List Int)
    (hr : r.length < 4 * n) (ho : n ≤ out.length) :
    DecodeInt32 (NewPlainDecoder r n) out
      = Outcome.returned
          ⟨r.length / 4,
           some (Error.errorf Msg.expectedInt32 [n, r.length / 4]
             (eofError (r.drop (4 * (r.length / 4))))),
           chunkValues (fun bs => toInt32 (Uint32 bs)) 4 (r.length / 4) r
             ++ out.drop (r.length / 4),
           []⟩ := by
  unfold DecodeInt32 NewPlainDecoder
  simp only
  rw [fixedLoop_short _ 4 _ isFixedRead_int32 _ n (r.length / 4) n 0 r out
    (by omega) (by omega) (by omega) (by omega)]
  simp

theorem length_PutUint32 (v : Nat) : (PutUint32 v).length = 4 := rfl

theorem length_PutUint64 (v : Nat) : (PutUint64 v).length = 8 := rfl

/-- C1. Writing a list of int32 (resp. int64) values with `WriteInt32` (resp.
`WriteInt64`) into an empty buffer succeeds, and decoding that buffer with a
plain decoder created with `numValues = len(vs)` into a destination of length
`len(vs)` returns `len(vs)` and no error, leaves the destination equal to `vs`
and the buffer empty. -/
theorem plain_int_roundtrip (vs ws out32 out64 : List Int)
    (h32 : ∀ v ∈ vs, -2 ^ 31 ≤ v ∧ v < 2 ^ 31) (h64 : ∀ v ∈ ws, -2 ^ 63 ≤ v ∧ v < 2 ^ 63)
    (ho32 : out32.length = vs.length) (ho64 : out64.length = ws.length) :
    ((WriteInt32 NewPlainEncoder [] vs).2.1 = none
        ∧ DecodeInt32 (NewPlainDecoder (WriteInt32 NewPlainEncoder [] vs).2.2 vs.length) out32
            = Outcome.returned ⟨vs.length, none, vs, []⟩)
      ∧ ((WriteInt64 NewPlainEncoder [] ws).2.1 = none
        ∧ DecodeInt64 (NewPlainDecoder (WriteInt64 NewPlainEncoder [] ws).2.2 ws.length) out64
            = Outcome.returned ⟨ws.length, none, ws, []⟩) := by
  have l32 : ((vs.map (fun x => PutUint32 (toUint32 x))).flatten).length = 4 * vs.length :=
    length_flatten_map 4 _ vs (fun v _ => length_PutUint32 _)
  have l64 : ((ws.map (fun x => PutUint64 (toUint64 x))).flatten).length = 8 * ws.length :=
    length_flatten_map 8 _ ws (fun v _ => length_PutUint64 _)
  have c32 := chunkValues_flatten (fun bs => toInt32 (Uint32 bs)) 4
    (fun x => PutUint32 (toUint32 x)) vs
    (fun v hv => ⟨length_PutUint32 _, by
      show toInt32 (Uint32 (PutUint32 (toUint32 v))) = v
      rw [Uint32_PutUint32 _ (toUint32_lt v), toInt32_toUint32 v (h32 v hv).1 (h32 v hv).2]⟩)
  have c64 := chunkValues_flatten (fun bs => toInt64 (Uint64 bs)) 8
    (fun x => PutUint64 (toUint64 x)) ws
    (fun v hv => ⟨length_PutUint64 _, by
      show toInt64 (Uint64 (PutUint64 (toUint64 v))) = v
      rw [Uint64_PutUint64 _ (toUint64_lt v), toInt64_toUint64 v (h64 v hv).1 (h64 v hv).2]⟩)
  have m64 : min ws.length out64.length = ws.length := by
    unfold min; split <;> omega
  refine ⟨⟨rfl, ?_⟩, ⟨rfl, ?_⟩⟩
  · simp only [WriteInt32, binaryWrite, List.nil_append]
    rw [DecodeInt32_eq_of_enough _ _ _ (by omega) (by omega), c32,
      List.drop_of_length_le (by omega), List.drop_of_length_le (by omega)]
    simp
  · simp only [WriteInt64, binaryWrite, List.nil_append]
    rw [DecodeInt64_eq_of_enough _ _ _ (by rw [m64]; omega), m64, c64,
      List.drop_of_length_le (by omega), List.drop_of_length_le (by omega)]
    simp

theorem plain_int_roundtrip_witness :
    (∀ v ∈ ([0, -1, -2147483648, 2147483647] : List Int), -2 ^ 31 ≤ v ∧ v < 2 ^ 31)
      ∧ (∀ v ∈ ([0, -1, -9223372036854775808, 9223372036854775807] : List Int),
          -2 ^ 63 ≤ v ∧ v < 2 ^ 63)
      ∧ DecodeInt32 (NewPlainDecoder
          (WriteInt32 NewPlainEncoder [] [0, -1, -2147483648, 2147483647]).2.2 4) [7, 7, 7, 7]
          = Outcome.returned ⟨4, none, [0, -1, -2147483648, 2147483647], []⟩
      ∧ DecodeInt64 (NewPlainDecoder
          (WriteInt64 NewPlainEncoder []
            [0, -1, -9223372036854775808, 9223372036854775807]).2.2 4) [7, 7, 7, 7]
          = Outcome.returned
              ⟨4, none, [0, -1, -9223372036854775808, 9223372036854775807], []⟩ :=
  have h := plain_int_roundtrip [0, -1, -2147483648, 2147483647]
    [0, -1, -9223372036854775808, 9223372036854775807] [7, 7, 7, 7] [7, 7, 7, 7]
    (by decide) (by decide) rfl rfl
  ⟨by decide, by decide, h.1.2, h.2.2⟩

/-- C2. With at least `4 * n` bytes in the source and a destination of length
at least `n`, `DecodeInt32` returns `n` and no error, stores in `out[i]`, for
each `i < n`, the two's-complement little-endian value of source bytes
`4i .. 4i+3`, leaves the rest of the destination alone and consumes exactly
`4 * n` bytes; `numValues = 3` over `01 00 00 00 02 00 00 00 03 00 00 00`
yields `[1, 2, 3]`. -/
theorem DecodeInt32_decodes_little_endian (n : Nat) (r : List Byte) (out : List Int)
    (hr : 4 * n ≤ r.length) (ho : n ≤ out.length) :
    (∃ out1 : List Int,
        DecodeInt32 (NewPlainDecoder r n) out
          = Outcome.returned ⟨n, none, out1, r.drop (4 * n)⟩
        ∧ out1.length = out.length
        ∧ (∀ i, i < n → out1[i]? = some (int32LE (r.getD (4 * i) 0) (r.getD (4 * i + 1) 0)
              (r.getD (4 * i + 2) 0) (r.getD (4 * i + 3) 0)))
        ∧ (∀ i, n ≤ i → out1[i]? = out[i]?))
      ∧ (r.drop (4 * n)).length + 4 * n = r.length
      ∧ DecodeInt32 (NewPlainDecoder [1, 0, 0, 0, 2, 0, 0, 0, 3, 0, 0, 0] 3) [0, 0, 0]
          = Outcome.returned ⟨3, none, [1, 2, 3], []⟩ := by
  refine ⟨⟨_, DecodeInt32_eq_of_enough n r out hr ho, ?_, ?_, ?_⟩, ?_, by decide⟩
  · simp [length_chunkValues]; omega
  · intro i hi
    rw [List.getElem?_append_left (by rw [length_chunkValues]; exact hi),
      getElem?_chunkValues _ _ _ _ _ hi, toInt32_Uint32_group]
  · intro i hi
    rw [List.getElem?_append_right (by rw [length_chunkValues]; exact hi), length_chunkValues,
      List.getElem?_drop]
    congr 1
    omega
  · rw [List.length_drop]; omega

theorem DecodeInt32_decodes_little_endian_witness :
    4 * 2 ≤ ([255, 255, 255, 255, 0, 0, 0, 128, 7] : List Byte).length
      ∧ 2 ≤ ([5, 5, 5] : List Int).length
      ∧ ∃ out1 : List Int,
        DecodeInt32 (NewPlainDecoder [255, 255, 255, 255, 0, 0, 0, 128, 7] 2) [5, 5, 5]
          = Outcome.returned
              ⟨2, none, out1, List.drop (4 * 2) [255, 255, 255, 255, 0, 0, 0, 128, 7]⟩
        ∧ out1 = [-1, -2147483648, 5] := by
  refine ⟨by decide, by decide, ?_⟩
  obtain ⟨out1, h1, _, _, _⟩ :=
    (DecodeInt32_decodes_little_endian 2 [255, 255, 255, 255, 0, 0, 0, 128, 7] [5, 5, 5]
      (by decide) (by decide)).1
  have h2 : DecodeInt32 (NewPlainDecoder [255, 255, 255, 255, 0, 0, 0, 128, 7] 2) [5, 5, 5]
      = Outcome.returned ⟨2, none, [-1, -2147483648, 5], [7]⟩ := by decide
  have h3 := h1
  rw [h2] at h3
  simp only [Outcome.returned.injEq, Ret.mk.injEq] at h3
  exact ⟨out1, h1, h3.2.2.1.symm⟩

/-- C5. With fewer than `4 * n` bytes in the source and a destination of length
at least `n`, `DecodeInt32` returns an error together with the count
`k = floor(len / 4)` of values fully decoded, and `out[0..k-1]` hold those
values; `n = 10` over 16 bytes fails reporting 4 values. -/
theorem DecodeInt32_short_read (n : Nat) (r : List Byte) (out : List Int)
    (hr : r.length < 4 * n) (ho : n ≤ out.length) :
    (∃ (e : Error) (out1 : List Int),
        DecodeInt32 (NewPlainDecoder r n) out
          = Outcome.returned ⟨r.length / 4, some e, out1, []⟩
        ∧ e = Error.errorf Msg.expectedInt32 [n, r.length / 4]
                (eofError (r.drop (4 * (r.length / 4))))
        ∧ out1.length = out.length
        ∧ (∀ i, i < r.length / 4 →
              out1[i]? = some (int32LE (r.getD (4 * i) 0) (r.getD (4 * i + 1) 0)
                (r.getD (4 * i + 2) 0) (r.getD (4 * i + 3) 0)))
        ∧ (∀ i, r.length / 4 ≤ i → out1[i]? = out[i]?))
      ∧ DecodeInt32
          (NewPlainDecoder [1, 0, 0, 0, 2, 0, 0, 0, 3, 0, 0, 0, 4, 0, 0, 0] 10)
          (List.replicate 10 0)
          = Outcome.returned
              ⟨4, some (Error.errorf Msg.expectedInt32 [10, 4] Error.EOF),
               [1, 2, 3, 4, 0, 0, 0, 0, 0, 0], []⟩ := by
  refine ⟨⟨_, _, DecodeInt32_eq_of_short n r out hr ho, rfl, ?_, ?_, ?_⟩, by decide⟩
  · simp [length_chunkValues]; omega
  · intro i hi
    rw [List.getElem?_append_left (by rw [length_chunkValues]; exact hi),
      getElem?_chunkValues _ _ _ _ _ hi, toInt32_Uint32_group]
  · intro i hi
    rw [List.getElem?_append_right (by rw [length_chunkValues]; exact hi), length_chunkValues,
      List.getElem?_drop]
    congr 1
    omega

theorem DecodeInt32_short_read_witness :
    ([9, 0, 0, 0, 255, 255, 255, 127, 1, 2] : List Byte).length < 4 * 3
      ∧ 3 ≤ ([5, 5, 5] : List Int).length
      ∧ ∃ (e : Error) (out1 : List Int),
        DecodeInt32 (NewPlainDecoder [9, 0, 0, 0, 255, 255, 255, 127, 1, 2] 3) [5, 5, 5]
          = Outcome.returned ⟨2, some e, out1, []⟩
        ∧ e = Error.errorf Msg.expectedInt32 [3, 2] Error.ErrUnexpectedEOF
        ∧ out1 = [9, 2147483647, 5] := by
  refine ⟨by decide, by decide, ?_⟩
  obtain ⟨e, out1, h1, _, _, _, _⟩ :=
    (DecodeInt32_short_read 3 [9, 0, 0, 0, 255, 255, 255, 127, 1, 2] [5, 5, 5]
      (by decide) (by decide)).1
  have h2 : DecodeInt32 (NewPlainDecoder [9, 0, 0, 0, 255, 255, 255, 127, 1, 2] 3) [5, 5, 5]
      = Outcome.returned
          ⟨2, some (Error.errorf Msg.expectedInt32 [3, 2] Error.ErrUnexpectedEOF),
           [9, 2147483647, 5], []⟩ := by decide
  have h3 := h1
  rw [h2] at h3
  simp only [Outcome.returned.injEq, Ret.mk.injEq, Option.some.injEq] at h3
  exact ⟨e, out1, h1, h3.2.1.symm, h3.2.2.1.symm⟩

/-- C4. `DecodeInt64`, `DecodeFloat32`, `DecodeFloat64` and `DecodeByteArray`,
each run with a declared count of 2 on a destination of capacity 1 and a source
holding two values, store one value, consume one value's worth of bytes and
return 2 as their count. -/
theorem decode_returns_declared_count_beyond_capacity :
    DecodeInt64 (NewPlainDecoder [1, 0, 0, 0, 0, 0, 0, 0, 2, 0, 0, 0, 0, 0, 0, 0] 2) [0]
        = Outcome.returned ⟨2, none, [1], [2, 0, 0, 0, 0, 0, 0, 0]⟩
      ∧ DecodeFloat32 (NewPlainDecoder [1, 0, 0, 0, 2, 0, 0, 0] 2) [0]
        = Outcome.returned ⟨2, none, [1], [2, 0, 0, 0]⟩
      ∧ DecodeFloat64 (NewPlainDecoder [1, 0, 0, 0, 0, 0, 0, 0, 2, 0, 0, 0, 0, 0, 0, 0] 2) [0]
        = Outcome.returned ⟨2, none, [1], [2, 0, 0, 0, 0, 0, 0, 0]⟩
      ∧ DecodeByteArray (NewPlainDecoder [1, 0, 0, 0, 97, 1, 0, 0, 0, 98] 2) [[]]
        = Outcome.returned ⟨2, none, [[97]], [1, 0, 0, 0, 98]⟩ := by
  decide

/-- C6. `DecodeFloat64` asked for 2 values from a source holding one decodes
the first and fails with count 0, where `DecodeFloat32` and `DecodeInt64` in
the same situation report 1; `DecodeByteArray` asked for 2 elements from a
source ending inside the second length prefix stores the first and fails with
count 0. -/
theorem short_read_count_not_values_decoded :
    DecodeFloat64 (NewPlainDecoder [1, 0, 0, 0, 0, 0, 0, 0] 2) [0, 0]
        = Outcome.returned
            ⟨0, some (Error.errorf Msg.binaryRead [] Error.EOF), [1, 0], []⟩
      ∧ DecodeFloat32 (NewPlainDecoder [1, 0, 0, 0] 2) [0, 0]
        = Outcome.returned
            ⟨1, some (Error.errorf Msg.binaryRead [] Error.EOF), [1, 0], []⟩
      ∧ DecodeInt64 (NewPlainDecoder [1, 0, 0, 0, 0, 0, 0, 0] 2) [0, 0]
        = Outcome.returned
            ⟨1, some (Error.errorf Msg.expectedInt64 [2, 1] Error.EOF), [1, 0], []⟩
      ∧ DecodeByteArray (NewPlainDecoder [2, 0, 0, 0, 97, 98, 1, 0] 2) [[], []]
        = Outcome.returned ⟨0, some Error.ErrUnexpectedEOF, [[97, 98], []], []⟩ := by
  decide

/-- C7. `WriteByteArray` on the two entries "ab" and "" returns the error of
the first `binary.Write(w, binary.LittleEndian, len(b))` and leaves the buffer
empty: nothing of `02 00 00 00 61 62 00 00 00 00` is written. -/
theorem WriteByteArray_fails_on_length :
    WriteByteArray NewPlainEncoder [] [[97, 98], []]
        = (⟨2⟩, some (Error.errorf Msg.writeLen [] Error.invalidType), [])
      ∧ byteArrayPage [[97, 98], []] = [2, 0, 0, 0, 97, 98, 0, 0, 0, 0] := by
  decide

/-- C9. A source whose only length prefix declares 3 bytes and which holds one
more byte: `DecodeByteArray` with `numValues = 1` returns count 1 and no error,
having stored the one-byte element. -/
theorem DecodeByteArray_stores_truncated_element :
    DecodeByteArray (NewPlainDecoder [3, 0, 0, 0, 97] 1) [[]]
      = Outcome.returned ⟨1, none, [[97]], []⟩ := by
  decide

theorem DecodeBool_count_zero
    (hybridRead : List Byte → Slice → Nat → Option Error × List Nat × List Byte)
    (d : plainDecoder) (out : List Bool) :
    (DecodeBool hybridRead d out).count = 0 ∧ (DecodeBool hybridRead d out).out = out := by
  unfold DecodeBool
  simp only
  split
  · exact ⟨rfl, rfl⟩
  · exact ⟨rfl, rfl⟩

/-- C10. Whatever the hybrid decoder's `Read` does, `DecodeBool` returns the
count 0 and leaves the destination as it was; with a declared count of 8, a
destination of length 8 and a `Read` that succeeds and fills its slots with 1,
it returns `0, nil` and stores nothing. -/
theorem DecodeBool_returns_zero_and_stores_nothing :
    (∀ (hybridRead : List Byte → Slice → Nat → Option Error × List Nat × List Byte)
        (d : plainDecoder) (out : List Bool),
        (DecodeBool hybridRead d out).count = 0 ∧ (DecodeBool hybridRead d out).out = out)
      ∧ DecodeBool allOnesHybridRead (NewPlainDecoder [3, 255] 8) (List.replicate 8 false)
          = ⟨0, none, List.replicate 8 false, []⟩ :=
  ⟨DecodeBool_count_zero, by decide⟩

theorem bufRead_append (b rest : List Byte) :
    bufRead (b ++ rest) b.length = (b, none, rest) := by
  unfold bufRead
  by_cases h : b ++ rest = []
  · have hb : b = [] := (List.append_eq_nil.1 h).1
    have hr : rest = [] := (List.append_eq_nil.1 h).2
    subst hb hr
    simp
  · rw [if_neg h, List.take_left, List.drop_left]

theorem length_lengthLE (n : Nat) : (lengthLE n).length = 4 := rfl

theorem Uint32_lengthLE (n : Nat) (h : n < 2 ^ 32) : Uint32 (lengthLE n) = n := by
  unfold lengthLE
  rw [Uint32_eq]
  simp only [List.getD_cons_zero, List.getD_cons_succ, byte_val]
  omega

theorem binaryReadInt32_lengthLE (n : Nat) (h : n < 2 ^ 31) (rest : List Byte) :
    binaryReadInt32 (lengthLE n ++ rest) = (Except.ok (n : Int), rest) := by
  unfold binaryReadInt32 ReadFull
  rw [if_pos (by rw [List.length_append, length_lengthLE]; omega),
    List.take_left' (length_lengthLE n), List.drop_left' (length_lengthLE n)]
  simp only
  rw [Uint32_lengthLE n (by omega)]
  unfold toInt32
  rw [if_pos h]

theorem byteArrayPage_cons (b : List Byte) (bs : List (List Byte)) :
    byteArrayPage (b :: bs) = lengthLE b.length ++ (b ++ byteArrayPage bs) := by
  simp [byteArrayPage]

theorem byteArrayLoop_page (count : Nat) :
    ∀ (bs : List (List Byte)) (i : Nat) (out : List (List Byte)),
      (∀ b ∈ bs, b.length < 2 ^ 31) → i + bs.length ≤ out.length →
      byteArrayLoop count bs.length i (byteArrayPage bs) out
        = Outcome.returned
            ⟨count, none, out.take i ++ bs ++ out.drop (i + bs.length), []⟩ := by
  intro bs
  induction bs with
  | nil =>
    intro i out _ _
    simp [byteArrayLoop, byteArrayPage]
  | cons b bs ih =>
    intro i out hlen ho
    have hb : b.length < 2 ^ 31 := hlen b (List.mem_cons_self b bs)
    have hi : i < out.length := by
      rw [List.length_cons] at ho; omega
    rw [List.length_cons, byteArrayPage_cons]
    unfold byteArrayLoop
    rw [binaryReadInt32_lengthLE _ hb]
    simp only
    rw [if_neg (by omega), Int.toNat_ofNat, bufRead_append]
    simp only [if_pos hi]
    rw [ih (i + 1) (out.set i b) (fun x hx => hlen x (List.mem_cons_of_mem b hx))
      (by rw [List.length_set, List.length_cons] at *; omega)]
    rw [take_succ_set _ _ _ hi, List.drop_set_of_lt _ _ (by omega)]
    have e : i + 1 + bs.length = i + (bs.length + 1) := by ring
    simp [e]

theorem DecodeByteArray_high_bit_length_panics (payload : List Byte) (out : List (List Byte))
    (ho : 0 < out.length) :
    DecodeByteArray (NewPlainDecoder ([0, 0, 0, 128] ++ payload) 1) out
      = Outcome.panicked Panic.makesliceLenOutOfRange := by
  have hm : min 1 out.length = 1 := by
    unfold min; split <;> omega
  unfold DecodeByteArray NewPlainDecoder
  simp only
  rw [hm]
  unfold byteArrayLoop binaryReadInt32 ReadFull
  rw [if_pos (by simp)]
  have hu : toInt32 (Uint32 (List.take 4 ([0, 0, 0, 128] ++ payload))) = -2147483648 := by
    have : List.take 4 (([0, 0, 0, 128] : List Byte) ++ payload) = [0, 0, 0, 128] := by
      simp [List.take]
    rw [this]
    decide
  simp only [hu]
  rfl

/-- The page holding one element of `2 ^ 31` zero bytes, i.e. the prefix
`00 00 00 80` followed by the element: `DecodeByteArray` with `numValues = 1`
and a destination of length 1 does not return, it panics in
`make([]byte, size)` with the negative `size`. -/
theorem DecodeByteArray_panics_on_two_gib_element :
    DecodeByteArray
        (NewPlainDecoder (byteArrayPage [List.replicate (2 ^ 31) 0])
          [List.replicate (2 ^ 31) (0 : Byte)].length) [[]]
      = Outcome.panicked Panic.makesliceLenOutOfRange := by
  have hp : lengthLE (2 ^ 31) = [0, 0, 0, 128] := by decide
  rw [byteArrayPage_cons, List.length_replicate, hp, List.length_singleton]
  exact DecodeByteArray_high_bit_length_panics _ _ (by simp)

/-- Over a `bytes.Buffer`: for every list `bs` of byte arrays each shorter than
`2 ^ 31` bytes, `DecodeByteArray` with `numValues = len(bs)` and a destination
of length `len(bs)`, applied to the concatenation over `bs` of (4-byte
little-endian length, raw bytes), returns `len(bs)` and no error, leaves the
destination equal to `bs` and the source empty. -/
theorem DecodeByteArray_decodes_page (bs out : List (List Byte))
    (hlen : ∀ b ∈ bs, b.length < 2 ^ 31) (ho : out.length = bs.length) :
    DecodeByteArray (NewPlainDecoder (byteArrayPage bs) bs.length) out
        = Outcome.returned ⟨bs.length, none, bs, []⟩
      ∧ DecodeByteArray (NewPlainDecoder [2, 0, 0, 0, 97, 98, 0, 0, 0, 0] 2) [[], []]
        = Outcome.returned ⟨2, none, [[97, 98], []], []⟩ := by
  refine ⟨?_, by decide⟩
  have hm : min bs.length out.length = bs.length := by
    unfold min; split <;> omega
  unfold DecodeByteArray NewPlainDecoder
  simp only
  rw [hm, byteArrayLoop_page bs.length bs 0 out hlen (by omega),
    List.drop_of_length_le (by omega)]
  simp

theorem DecodeByteArray_decodes_page_witness :
    (∀ b ∈ ([[97, 98], [], [206, 187], []] : List (List Byte)), b.length < 2 ^ 31)
      ∧ DecodeByteArray
          (NewPlainDecoder (byteArrayPage [[97, 98], [], [206, 187], []]) 4) [[], [], [], []]
        = Outcome.returned ⟨4, none, [[97, 98], [], [206, 187], []], []⟩ :=
  ⟨by decide,
    (DecodeByteArray_decodes_page [[97, 98], [], [206, 187], []] [[], [], [], []]
      (by decide) rfl).1⟩

theorem byteArrayLoopOn_bufRead (count : Nat) :
    ∀ (k i : Nat) (r : List Byte) (out : List (List Byte)),
      byteArrayLoopOn bufRead count k i r out = byteArrayLoop count k i r out := by
  intro k
  induction k with
  | zero => intro i r out; rfl
  | succ k ih =>
    intro i r out
    unfold byteArrayLoopOn byteArrayLoop
    simp only [ih]

theorem DecodeByteArrayOn_bufRead (d : plainDecoder) (out : List (List Byte)) :
    DecodeByteArrayOn bufRead d out = DecodeByteArray d out := by
  unfold DecodeByteArrayOn DecodeByteArray
  exact byteArrayLoopOn_bufRead _ _ _ _ _

/-- C8. The page `02 00 00 00 61 62 00 00 00 00` of the two entries "ab" and
"", decoded with `numValues = 2` into a destination of length 2 by a decoder
reading from a `bytes.Reader`: the payload of the last, empty element is
fetched with `d.r.Read(p)` at the end of the data, which reports `io.EOF`, and
`DecodeByteArray` returns count 1 and a short-read error with only "ab"
stored.  The same holds for the page of the single entry "".  From a
`bytes.Buffer` the same call returns 2 and no error. -/
theorem DecodeByteArray_fails_on_trailing_empty_element :
    DecodeByteArrayOn readerRead (NewPlainDecoder [2, 0, 0, 0, 97, 98, 0, 0, 0, 0] 2) [[], []]
        = Outcome.returned
            ⟨1, some (Error.errorf Msg.shortRead [] Error.EOF), [[97, 98], []], []⟩
      ∧ byteArrayPage [[97, 98], []] = [2, 0, 0, 0, 97, 98, 0, 0, 0, 0]
      ∧ DecodeByteArrayOn readerRead (NewPlainDecoder (byteArrayPage [[]]) 1) [[7]]
        = Outcome.returned ⟨0, some (Error.errorf Msg.shortRead [] Error.EOF), [[7]], []⟩
      ∧ DecodeByteArrayOn bufRead (NewPlainDecoder [2, 0, 0, 0, 97, 98, 0, 0, 0, 0] 2) [[], []]
        = Outcome.returned ⟨2, none, [[97, 98], []], []⟩ := by
  decide

theorem wrapInt_add (a b : Int) : wrapInt (wrapInt a + b) = wrapInt (a + b) := by
  unfold wrapInt
  omega

theorem wrapInt_of_range (x : Int) (h1 : -9223372036854775808 ≤ x)
    (h2 : x < 9223372036854775808) : wrapInt x = x := by
  unfold wrapInt
  omega

theorem numValues_apply (c : WriteCall) (e : plainEncoder) (w : List Byte) :
    (c.apply e w).1.numValues = wrapInt (e.numValues + c.len) := by
  cases c <;> rfl

theorem numValues_runWrites :
    ∀ (cs : List WriteCall) (e : plainEncoder) (w : List Byte),
      wrapInt (NumValues (runWrites e w cs).1)
        = wrapInt (e.numValues + ((cs.map WriteCall.len).sum : Nat)) := by
  intro cs
  induction cs with
  | nil => intro e w; simp [runWrites, NumValues]
  | cons c cs ih =>
    intro e w
    rw [runWrites, ih, numValues_apply, wrapInt_add]
    simp only [List.map_cons, List.sum_cons]
    push_cast
    congr 1
    ring

theorem wrapInt_NumValues_runWrites :
    ∀ (cs : List WriteCall) (e : plainEncoder) (w : List Byte),
      e.numValues = wrapInt e.numValues →
      NumValues (runWrites e w cs).1 = wrapInt (NumValues (runWrites e w cs).1) := by
  intro cs
  induction cs with
  | nil => intro e w h; simpa [runWrites, NumValues] using h
  | cons c cs ih =>
    intro e w _
    rw [runWrites]
    apply ih
    rw [numValues_apply]
    unfold wrapInt
    omega

theorem NumValues_fresh (cs : List WriteCall) (w : List Byte) :
    NumValues (runWrites NewPlainEncoder w cs).1
      = wrapInt (((cs.map WriteCall.len).sum : Nat) : Int) := by
  rw [wrapInt_NumValues_runWrites cs NewPlainEncoder w (by decide), numValues_runWrites]
  simp [NewPlainEncoder]

/-- The calls of the sequence on which the counter wraps: `WriteByteArray` with
a slice of `2 ^ 20` empty byte arrays. -/
theorem len_wrapping_call :
    (WriteCall.WriteByteArray (List.replicate (2 ^ 20) [])).len = 2 ^ 20 := by
  simp only [WriteCall.len, List.length_replicate]

theorem sum_len_wrapping_calls :
    ((List.replicate (2 ^ 43) (WriteCall.WriteByteArray (List.replicate (2 ^ 20) []))).map
      WriteCall.len).sum = 2 ^ 63 := by
  rw [List.map_replicate, len_wrapping_call, List.sum_replicate, smul_eq_mul]
  norm_num

/-- C11 (as the claim states it, refuted). `2 ^ 43` calls of `WriteByteArray`,
each with a slice of `2 ^ 20` byte arrays, on a fresh encoder: the lengths
total `2 ^ 63` and `NumValues()` is `-2 ^ 63`. -/
theorem NumValues_wraps_at_two_pow_63 :
    ((List.replicate (2 ^ 43) (WriteCall.WriteByteArray (List.replicate (2 ^ 20) []))).map
        WriteCall.len).sum = 2 ^ 63
      ∧ NumValues (runWrites NewPlainEncoder []
          (List.replicate (2 ^ 43) (WriteCall.WriteByteArray (List.replicate (2 ^ 20) [])))).1
        = -9223372036854775808
      ∧ NumValues (runWrites NewPlainEncoder []
          (List.replicate (2 ^ 43) (WriteCall.WriteByteArray (List.replicate (2 ^ 20) [])))).1
        ≠ (((List.replicate (2 ^ 43)
            (WriteCall.WriteByteArray (List.replicate (2 ^ 20) []))).map
              WriteCall.len).sum : Nat) := by
  have h : NumValues (runWrites NewPlainEncoder []
      (List.replicate (2 ^ 43) (WriteCall.WriteByteArray (List.replicate (2 ^ 20) [])))).1
      = -9223372036854775808 := by
    rw [NumValues_fresh, sum_len_wrapping_calls]
    decide
  refine ⟨sum_len_wrapping_calls, h, ?_⟩
  rw [h, sum_len_wrapping_calls]
  decide

/-- C11 (amended). For a fresh plain encoder and every sequence of `Write`
calls whose slice lengths total less than `2 ^ 63`, `NumValues()` equals that
total (whatever the total, it is the total reduced to the range of a 64-bit
`int`); `Flush()` returns no error and leaves the encoder, hence
`NumValues()`, unchanged; `Type()` reports the plain encoding tag. -/
theorem NumValues_eq_sum_of_lengths (cs : List WriteCall) (w : List Byte)
    (h : (cs.map WriteCall.len).sum < 2 ^ 63) :
    NumValues (runWrites NewPlainEncoder w cs).1 = ((cs.map WriteCall.len).sum : Nat)
      ∧ (∀ (ds : List WriteCall) (w2 : List Byte),
          NumValues (runWrites NewPlainEncoder w2 ds).1
            = wrapInt (((ds.map WriteCall.len).sum : Nat) : Int))
      ∧ (Flush (runWrites NewPlainEncoder w cs).1).2 = none
      ∧ NumValues (Flush (runWrites NewPlainEncoder w cs).1).1
          = NumValues (runWrites NewPlainEncoder w cs).1
      ∧ Type_ (runWrites NewPlainEncoder w cs).1 = Encoding_PLAIN
      ∧ Type_ NewPlainEncoder = Encoding_PLAIN := by
  refine ⟨?_, fun ds w2 => NumValues_fresh ds w2, rfl, rfl, rfl, rfl⟩
  rw [NumValues_fresh]
  apply wrapInt_of_range
  · omega
  · have : (((cs.map WriteCall.len).sum : Nat) : Int) < ((2 ^ 63 : Nat) : Int) :=
      Int.ofNat_lt.2 h
    simpa using this

theorem NumValues_eq_sum_of_lengths_witness :
    ([WriteCall.WriteBool [true, false], WriteCall.WriteInt32 [],
        WriteCall.WriteByteArray [[97, 98], []], WriteCall.WriteFloat64 [0]].map
          WriteCall.len).sum < 2 ^ 63
      ∧ NumValues (runWrites NewPlainEncoder []
          [WriteCall.WriteBool [true, false], WriteCall.WriteInt32 [],
            WriteCall.WriteByteArray [[97, 98], []], WriteCall.WriteFloat64 [0]]).1
        = (([WriteCall.WriteBool [true, false], WriteCall.WriteInt32 [],
            WriteCall.WriteByteArray [[97, 98], []], WriteCall.WriteFloat64 [0]].map
              WriteCall.len).sum : Nat) :=
  ⟨by decide,
    (NumValues_eq_sum_of_lengths
      [WriteCall.WriteBool [true, false], WriteCall.WriteInt32 [],
        WriteCall.WriteByteArray [[97, 98], []], WriteCall.WriteFloat64 [0]] []
      (by decide)).1⟩

/-- C18. `DecodeInt32` with a declared count of 3, twelve bytes in the source
and a destination of length 2 panics on the store `out[2]`; `DecodeByteArray`
on the length prefix `00 00 00 80` panics in `make([]byte, size)` with the
negative `size`.  `DecodeInt64` on the first input returns. -/
theorem decode_panics_on_untrusted_input :
    DecodeInt32 (NewPlainDecoder [1, 0, 0, 0, 2, 0, 0, 0, 3, 0, 0, 0] 3) [0, 0]
        = Outcome.panicked Panic.indexOutOfRange
      ∧ DecodeByteArray (NewPlainDecoder [0, 0, 0, 128] 1) [[]]
        = Outcome.panicked Panic.makesliceLenOutOfRange
      ∧ DecodeInt64 (NewPlainDecoder [1, 0, 0, 0, 2, 0, 0, 0, 3, 0, 0, 0] 3) [0, 0]
        = Outcome.returned
            ⟨1, some (Error.errorf Msg.expectedInt64 [3, 1] Error.ErrUnexpectedEOF),
             [8589934593, 0], []⟩ := by
  decide

theorem trailingZerosLoop_two_pow_fuel (i p fuel1 fuel2 c : Nat) (h1 : p < fuel1)
    (h2 : p < fuel2) (hc : c + (p + 1) < 2 ^ 32) :
    trailingZerosLoop i fuel1 (2 ^ p) c = trailingZerosLoop i fuel2 (2 ^ p) c := by
  rw [trailingZerosLoop_two_pow i p fuel1 c h1 hc, trailingZerosLoop_two_pow i p fuel2 c h2 hc]

/-- C20. For every `i`, 0 included, the loop of `trailingZeros` started at
`mask = 1 << 31` exits within 32 runs of its body (more fuel gives the same
result, and for `i = 0` 31 runs are not enough), its count is at most 32, and
`GetBitWidthFromMaxInt i` is `32 - count` with no wrap-around of the unsigned
subtraction. -/
theorem trailingZeros_terminates_within_32 (i : Nat) :
    (∃ c : Nat, trailingZerosLoop i 32 (2 ^ 31) 0 = some c
        ∧ (∀ fuel, 32 ≤ fuel → trailingZerosLoop i fuel (2 ^ 31) 0 = some c)
        ∧ c ≤ 32
        ∧ trailingZeros i = some c
        ∧ GetBitWidthFromMaxInt i = some (32 - c)
        ∧ 32 - c ≤ 32)
      ∧ trailingZerosLoop 0 32 (2 ^ 31) 0 = some 32
      ∧ trailingZerosLoop 0 31 (2 ^ 31) 0 = none
      ∧ GetBitWidthFromMaxInt 0 = some 0 := by
  refine ⟨⟨countLeadingZeroBits i, ?_, ?_, countLeadingZeroBits_le i, trailingZeros_eq i, ?_,
    Nat.sub_le _ _⟩, by decide, by decide, by decide⟩
  · exact trailingZeros_eq i
  · intro fuel hf
    rw [trailingZerosLoop_two_pow_fuel i 31 fuel 32 0 (by omega) (by omega) (by norm_num)]
    exact trailingZeros_eq i
  · have hle := countLeadingZeroBits_le i
    unfold GetBitWidthFromMaxInt
    rw [trailingZeros_eq]
    simp only [Option.map_some']
    congr 1
    omega

theorem testBit_of_two_pow_le_of_lt (i p : Nat) (h1 : 2 ^ p ≤ i) (h2 : i < 2 ^ (p + 1)) :
    i.testBit p = true := by
  by_contra hb
  have hb1 : i.testBit p = false := by simpa using hb
  have hlt : i < 2 ^ p := by
    apply Nat.lt_pow_two_of_testBit
    intro k hk
    by_cases hkp : k = p
    · rw [hkp]; exact hb1
    · apply Nat.testBit_lt_two_pow
      exact lt_of_lt_of_le h2 (Nat.pow_le_pow_right (by norm_num) (by omega))
  omega

theorem leadingZeros_bounds (i : Nat) :
    ∀ p, i < 2 ^ (p + 1) →
      i < 2 ^ (p + 1 - (((List.range (p + 1)).reverse.map (fun k => i.testBit k)).takeWhile
            (fun b => !b)).length)
        ∧ ((((List.range (p + 1)).reverse.map (fun k => i.testBit k)).takeWhile
            (fun b => !b)).length ≤ p →
          2 ^ (p - (((List.range (p + 1)).reverse.map (fun k => i.testBit k)).takeWhile
            (fun b => !b)).length) ≤ i) := by
  intro p
  induction p with
  | zero =>
    intro hi
    cases hb : i.testBit 0
    · have h0 : i < 2 ^ 0 := by
        by_contra hge
        have := testBit_of_two_pow_le_of_lt i 0 (by omega) hi
        rw [hb] at this
        exact Bool.false_ne_true this
      simp [List.range_succ, hb]
      simpa using h0
    · have hge := Nat.testBit_implies_ge hb
      simp [List.range_succ, hb]
      omega
  | succ p ih =>
    intro hi
    rw [List.range_succ, List.reverse_append]
    cases hb : i.testBit (p + 1)
    · have h0 : i < 2 ^ (p + 1) := by
        by_contra hge
        have := testBit_of_two_pow_le_of_lt i (p + 1) (by omega) hi
        rw [hb] at this
        exact Bool.false_ne_true this
      have ih1 := ih h0
      simp only [List.reverse_cons, List.reverse_nil, List.nil_append, List.map_append,
        List.map_cons, List.map_nil, List.singleton_append, hb, Bool.not_false,
        List.takeWhile_cons_of_pos, List.length_cons]
      constructor
      · have e : p + 1 + 1 - ((List.takeWhile (fun b => !b)
            (List.map (fun k => i.testBit k) (List.range (p + 1)).reverse)).length + 1)
            = p + 1 - (List.takeWhile (fun b => !b)
            (List.map (fun k => i.testBit k) (List.range (p + 1)).reverse)).length := by omega
        rw [e]; exact ih1.1
      · intro hl
        have e : p + 1 - ((List.takeWhile (fun b => !b)
            (List.map (fun k => i.testBit k) (List.range (p + 1)).reverse)).length + 1)
            = p - (List.takeWhile (fun b => !b)
            (List.map (fun k => i.testBit k) (List.range (p + 1)).reverse)).length := by omega
        rw [e]; exact ih1.2 (by omega)
    · have hge := Nat.testBit_implies_ge hb
      simp [hb]
      exact ⟨hi, hge⟩

theorem countLeadingZeroBits_bounds (i : Nat) (hi : i < 2 ^ 32) :
    i < 2 ^ (32 - countLeadingZeroBits i)
      ∧ (countLeadingZeroBits i ≤ 31 → 2 ^ (31 - countLeadingZeroBits i) ≤ i) :=
  leadingZeros_bounds i 31 hi

theorem GetBitWidthFromMaxInt_eq (i : Nat) :
    GetBitWidthFromMaxInt i = some (32 - countLeadingZeroBits i) := by
  have hle := countLeadingZeroBits_le i
  unfold GetBitWidthFromMaxInt
  rw [trailingZeros_eq]
  simp only [Option.map_some']
  congr 1
  omega

theorem bitWidth_least (i : Nat) (hi : i < 2 ^ 32) (v : Nat) (hv : i < 2 ^ v) :
    32 - countLeadingZeroBits i ≤ v := by
  have hb := countLeadingZeroBits_bounds i hi
  by_cases hc : countLeadingZeroBits i ≤ 31
  · have h1 : 2 ^ (31 - countLeadingZeroBits i) < 2 ^ v := lt_of_le_of_lt (hb.2 hc) hv
    have h2 : 31 - countLeadingZeroBits i < v :=
      (Nat.pow_lt_pow_iff_right (by norm_num)).1 h1
    omega
  · omega

/-- C19. For every 32-bit unsigned `i`, `w = GetBitWidthFromMaxInt i` is the
least natural number with `i < 2 ^ w`: `w ≤ 32`, every value up to `i` is below
`2 ^ w`, `2 ^ (w - 1) ≤ i` when `i > 0`, and the width of any larger 32-bit
value is at least `w`. -/
theorem GetBitWidthFromMaxInt_least_width (i : Nat) (hi : i < 2 ^ 32) :
    ∃ w : Nat, GetBitWidthFromMaxInt i = some w
      ∧ i < 2 ^ w
      ∧ (∀ v, i < 2 ^ v → w ≤ v)
      ∧ w ≤ 32
      ∧ (∀ x, x ≤ i → x < 2 ^ w)
      ∧ (0 < i → 2 ^ (w - 1) ≤ i)
      ∧ (∀ j, j < 2 ^ 32 → i ≤ j →
          ∃ w2 : Nat, GetBitWidthFromMaxInt j = some w2 ∧ w ≤ w2) := by
  have hb := countLeadingZeroBits_bounds i hi
  refine ⟨32 - countLeadingZeroBits i, GetBitWidthFromMaxInt_eq i, hb.1,
    bitWidth_least i hi, Nat.sub_le _ _, fun x hx => lt_of_le_of_lt hx hb.1, ?_, ?_⟩
  · intro hpos
    have hc : countLeadingZeroBits i ≤ 31 := by
      by_contra hc
      have h32 : countLeadingZeroBits i = 32 := by
        have := countLeadingZeroBits_le i
        omega
      have h1 := hb.1
      rw [h32] at h1
      simp at h1
      omega
    have e : 32 - countLeadingZeroBits i - 1 = 31 - countLeadingZeroBits i := by omega
    rw [e]
    exact hb.2 hc
  · intro j hj hij
    refine ⟨32 - countLeadingZeroBits j, GetBitWidthFromMaxInt_eq j, ?_⟩
    exact bitWidth_least i hi _ (lt_of_le_of_lt hij (countLeadingZeroBits_bounds j hj).1)

theorem GetBitWidthFromMaxInt_least_width_witness :
    (255 : Nat) < 2 ^ 32
      ∧ ∃ w : Nat, GetBitWidthFromMaxInt 255 = some w
        ∧ 255 < 2 ^ w
        ∧ (∀ v, 255 < 2 ^ v → w ≤ v)
        ∧ w ≤ 32
        ∧ (∀ x, x ≤ 255 → x < 2 ^ w)
        ∧ (0 < 255 → 2 ^ (w - 1) ≤ 255)
        ∧ (∀ j, j < 2 ^ 32 → 255 ≤ j →
            ∃ w2 : Nat, GetBitWidthFromMaxInt j = some w2 ∧ w ≤ w2) :=
  ⟨by decide, GetBitWidthFromMaxInt_least_width 255 (by decide)⟩

end encoding

namespace parquet

open encoding (Error)

/-! ## Properties of the scanner -/

theorem setErr_of_real (s : ColumnScanner) (e : Error) (he : e ≠ Error.EOF)
    (hs : s.err = some e) (x : Option Error) : setErr s x = s := by
  unfold setErr
  rw [if_neg]
  rw [hs]
  simp [he]

theorem Err_of_real (s : ColumnScanner) (e : Error) (he : e ≠ Error.EOF)
    (hs : s.err = some e) : Err s = some e := by
  unfold Err
  rw [if_neg, hs]
  rw [hs]
  simp [he]

theorem nextPage_err (debug : Bool) (src : Source) (s : ColumnScanner) :
    (nextPage debug src s).state.err = s.err := by
  unfold nextPage
  split
  · rfl
  · split
    · split
      · split <;> rfl
      · split
        · rfl
        · split
          · rfl
          · split <;> rfl
    · rfl

theorem scanLoop_spec (debug : Bool) (src : Source) :
    ∀ (fuel : Nat) (s : ColumnScanner) (res : Result Bool),
      scanLoop debug src fuel s = some res →
        (∀ b t, res = Result.returned b t → b = false)
          ∧ (∀ e, e ≠ Error.EOF → s.err = some e → res.state.err = some e) := by
  intro fuel
  induction fuel with
  | zero => intro s res h; simp [scanLoop] at h
  | succ fuel ih =>
    intro s res h
    have hn := nextPage_err debug src s
    unfold scanLoop at h
    split at h
    · rename_i p s1 hp
      injection h with h
      subst h
      rw [hp] at hn
      refine ⟨fun b t hbt => (by cases hbt), fun e _ hs => ?_⟩
      simpa [Result.state, hs] using hn
    · rename_i err s1 hp
      injection h with h
      subst h
      rw [hp] at hn
      refine ⟨fun b t hbt => (by injection hbt with h1 _; exact h1.symm), fun e he hs => ?_⟩
      have hs1 : s1.err = some e := by simpa [Result.state, hs] using hn
      simp only [Result.state]
      rw [setErr_of_real s1 e he hs1]
      exact hs1
    · rename_i s1 hp
      rw [hp] at hn
      have hs1 : s1.err = s.err := by simpa [Result.state] using hn
      have := ih s1 res h
      refine ⟨this.1, fun e he hs => this.2 e he (by rw [hs1]; exact hs)⟩

theorem Scan_spec (debug : Bool) (src : Source) (fuel : Nat) (s : ColumnScanner)
    (res : Result Bool) (h : Scan debug src fuel s = some res) :
    (∀ b t, res = Result.returned b t → b = false)
      ∧ (∀ e, e ≠ Error.EOF → s.err = some e → res.state.err = some e) := by
  unfold Scan at h
  split at h
  · rename_i err hseek
    injection h with h
    subst h
    refine ⟨fun b t hbt => (by injection hbt with h1 _; exact h1.symm), fun e he hs => ?_⟩
    simp only [Result.state]
    rw [setErr_of_real s e he hs]
    exact hs
  · rename_i pos hseek
    exact scanLoop_spec debug src fuel { s with r := pos } res h

theorem later_err (src : Source) (s t : ColumnScanner) (e : Error) (he : e ≠ Error.EOF)
    (hs : s.err = some e) (hl : Later src s t) : t.err = some e := by
  induction hl with
  | refl => exact hs
  | setErr t x _ ih => rw [setErr_of_real t e he ih]; exact ih
  | Scan t debug fuel res _ hres ih => exact (Scan_spec debug src fuel t res hres).2 e he ih

/-- C12. On a well-formed chunk of one page whose body is empty, the first call
of `Scan` reads the header and the end of the stream and returns false with
`Err() == nil`, under either value of `Config.Debug`; when the body holds three
int32 values the first call returns false with the error `header.Read` reports
on the body.  `Scan` has returned true zero times. -/
theorem Scan_returns_false_on_one_page_chunk :
    Scan true (onePageChunk 0) 2 (NewColumnScanner 0 4)
        = some (Result.returned false ⟨20, 4, some Error.EOF⟩)
      ∧ Scan false (onePageChunk 0) 2 (NewColumnScanner 0 4)
        = some (Result.returned false ⟨20, 4, some Error.EOF⟩)
      ∧ Err ⟨20, 4, some Error.EOF⟩ = none
      ∧ Scan true (onePageChunk 12) 2 (NewColumnScanner 0 4)
        = some (Result.returned false ⟨20, 4, some (Error.other 1)⟩) := by
  decide

theorem nextPage_shape (debug : Bool) (src : Source) (pos : Nat) :
    (∃ p pos1, ∀ s : ColumnScanner, s.r = pos →
        nextPage debug src s = Result.panicked p { s with r := pos1 })
      ∨ (∃ v pos1, ∀ s : ColumnScanner, s.r = pos →
        nextPage debug src s = Result.returned v { s with r := pos1 }) := by
  rcases h : src.headerRead pos with ⟨res, pos1⟩
  cases res with
  | error err =>
    exact Or.inr ⟨some err, pos1, fun s hs => by simp [nextPage, hs, h]⟩
  | ok header =>
    cases debug with
    | false => exact Or.inr ⟨none, pos1, fun s hs => by simp [nextPage, hs, h]⟩
    | true =>
      by_cases h0 : header.Type_ = PageType_DATA_PAGE
      · cases hd : header.DataPageHeader with
        | none =>
          refine Or.inl ⟨ScanPanic.nilPointerDereference, pos1, fun s hs => ?_⟩
          unfold nextPage
          rw [hs, h]
          simp only
          rw [if_pos trivial, if_pos h0, hd]
        | some d =>
          refine Or.inr ⟨none, pos1, fun s hs => ?_⟩
          unfold nextPage
          rw [hs, h]
          simp only
          rw [if_pos trivial, if_pos h0, hd]
      · by_cases h1 : header.Type_ = PageType_INDEX_PAGE
        · refine Or.inr ⟨none, pos1, fun s hs => ?_⟩
          unfold nextPage
          rw [hs, h]
          simp only
          rw [if_pos trivial, if_neg h0, if_pos h1]
        · by_cases h2 : header.Type_ = PageType_DICTIONARY_PAGE
          · refine Or.inr ⟨none, pos1, fun s hs => ?_⟩
            unfold nextPage
            rw [hs, h]
            simp only
            rw [if_pos trivial, if_neg h0, if_neg h1, if_pos h2]
          · by_cases h3 : header.Type_ = PageType_DATA_PAGE_V2
            · refine Or.inr ⟨none, pos1, fun s hs => ?_⟩
              unfold nextPage
              rw [hs, h]
              simp only
              rw [if_pos trivial, if_neg h0, if_neg h1, if_neg h2, if_pos h3]
            · refine Or.inl ⟨ScanPanic.unsupportedPageHeaderType, pos1, fun s hs => ?_⟩
              unfold nextPage
              rw [hs, h]
              simp only
              rw [if_pos trivial, if_neg h0, if_neg h1, if_neg h2, if_neg h3]

theorem setErr_offset (s : ColumnScanner) (x : Option Error) :
    (setErr s x).DataPageOffset = s.DataPageOffset := by
  unfold setErr
  split <;> rfl

theorem scanLoop_frame (debug : Bool) (src : Source) :
    ∀ (fuel : Nat) (s : ColumnScanner) (res : Result Bool),
      scanLoop debug src fuel s = some res →
        res.state.DataPageOffset = s.DataPageOffset
          ∧ (∀ p t, res = Result.panicked p t → t.err = s.err) := by
  intro fuel
  induction fuel with
  | zero => intro s res h; simp [scanLoop] at h
  | succ fuel ih =>
    intro s res h
    unfold scanLoop at h
    rcases nextPage_shape debug src s.r with ⟨p, pos1, hp⟩ | ⟨v, pos1, hv⟩
    · rw [hp s rfl] at h
      simp only [Option.some.injEq] at h
      subst h
      exact ⟨rfl, fun p2 t ht => by injection ht with _ h2; rw [← h2]⟩
    · rw [hv s rfl] at h
      cases v with
      | some err =>
        simp only [Option.some.injEq] at h
        subst h
        exact ⟨by simp [Result.state, setErr_offset], fun p t ht => by cases ht⟩
      | none =>
        simp only at h
        have h2 := ih _ res h
        exact h2

theorem Scan_frame (debug : Bool) (src : Source) (fuel : Nat) (s : ColumnScanner)
    (res : Result Bool) (h : Scan debug src fuel s = some res) :
    res.state.DataPageOffset = s.DataPageOffset
      ∧ (∀ p t, res = Result.panicked p t → t.err = s.err) := by
  unfold Scan at h
  split at h
  · simp only [Option.some.injEq] at h
    subst h
    exact ⟨by simp [Result.state, setErr_offset], fun p t ht => by cases ht⟩
  · have h2 := scanLoop_frame debug src fuel _ res h
    exact h2

theorem scanLoop_replay (debug : Bool) (src : Source) :
    ∀ (f1 : Nat) (s1 : ColumnScanner) (b1 : Bool) (t1 : ColumnScanner),
      scanLoop debug src f1 s1 = some (Result.returned b1 t1) →
      ∀ s2 : ColumnScanner, s2.r = s1.r →
        (∃ t2, scanLoop debug src f1 s2 = some (Result.returned false t2))
          ∧ (∀ f2 res2, scanLoop debug src f2 s2 = some res2 →
              ∃ t2, res2 = Result.returned false t2) := by
  intro f1
  induction f1 with
  | zero => intro s1 b1 t1 h; simp [scanLoop] at h
  | succ f1 ih =>
    intro s1 b1 t1 h s2 hr
    unfold scanLoop at h
    rcases nextPage_shape debug src s1.r with ⟨p, pos1, hp⟩ | ⟨v, pos1, hv⟩
    · rw [hp s1 rfl] at h
      simp at h
    · rw [hv s1 rfl] at h
      cases v with
      | some err =>
        constructor
        · refine ⟨setErr { s2 with r := pos1 } (some err), ?_⟩
          unfold scanLoop
          rw [hv s2 hr]
        · intro f2 res2 h2
          cases f2 with
          | zero => simp [scanLoop] at h2
          | succ f2 =>
            unfold scanLoop at h2
            rw [hv s2 hr] at h2
            simp only [Option.some.injEq] at h2
            exact ⟨_, h2.symm⟩
      | none =>
        simp only at h
        have ih1 := ih { s1 with r := pos1 } b1 t1 h { s2 with r := pos1 } rfl
        constructor
        · obtain ⟨t2, ht2⟩ := ih1.1
          refine ⟨t2, ?_⟩
          unfold scanLoop
          rw [hv s2 hr]
          exact ht2
        · intro f2 res2 h2
          cases f2 with
          | zero => simp [scanLoop] at h2
          | succ f2 =>
            unfold scanLoop at h2
            rw [hv s2 hr] at h2
            exact ih1.2 f2 res2 h2

theorem Scan_replay (debug : Bool) (src : Source) (f1 : Nat) (s1 : ColumnScanner) (b1 : Bool)
    (t1 : ColumnScanner) (h : Scan debug src f1 s1 = some (Result.returned b1 t1))
    (s2 : ColumnScanner) (ho : s2.DataPageOffset = s1.DataPageOffset) :
    (∃ t2, Scan debug src f1 s2 = some (Result.returned false t2))
      ∧ (∀ f2 res2, Scan debug src f2 s2 = some res2 →
          ∃ t2, res2 = Result.returned false t2) := by
  obtain ⟨r2, o2, e2⟩ := s2
  simp only at ho
  subst ho
  cases hseek : src.Seek s1.DataPageOffset with
  | error err =>
    refine ⟨⟨setErr ⟨r2, s1.DataPageOffset, e2⟩ (some err), by simp only [Scan, hseek]⟩,
      fun f2 res2 h2 => ?_⟩
    simp only [Scan, hseek, Option.some.injEq] at h2
    exact ⟨_, h2.symm⟩
  | ok pos =>
    simp only [Scan, hseek] at h
    have hrep := scanLoop_replay debug src f1 _ b1 t1 h ⟨pos, s1.DataPageOffset, e2⟩ rfl
    refine ⟨?_, fun f2 res2 h2 => ?_⟩
    · simp only [Scan, hseek]
      exact hrep.1
    · simp only [Scan, hseek] at h2
      exact hrep.2 f2 res2 h2

theorem reachable_has_returned (debug : Bool) (src : Source) (s : ColumnScanner)
    (hreach : Reachable debug src s) (e : Error) (hs : s.err = some e) :
    ∃ f0 s0 b0 t0, s0.DataPageOffset = s.DataPageOffset
      ∧ Scan debug src f0 s0 = some (Result.returned b0 t0) := by
  induction hreach with
  | fresh pos off => simp [NewColumnScanner] at hs
  | Scan s fuel res _ hres ih =>
    have hf := Scan_frame debug src fuel s res hres
    cases res with
    | returned b t => exact ⟨fuel, s, b, t, hf.1.symm, hres⟩
    | panicked p t =>
      have he : t.err = s.err := hf.2 p t rfl
      obtain ⟨f0, s0, b0, t0, h0, h1⟩ := ih (by rw [← he]; exact hs)
      exact ⟨f0, s0, b0, t0, by rw [h0]; exact hf.1.symm, h1⟩

theorem afterwards_frame (debug : Bool) (src : Source) (s t : ColumnScanner) (e : Error)
    (he : e ≠ Error.EOF) (hs : s.err = some e) (hl : Afterwards debug src s t) :
    t.DataPageOffset = s.DataPageOffset ∧ t.err = some e := by
  induction hl with
  | refl => exact ⟨rfl, hs⟩
  | setErr t x _ ih => rw [setErr_of_real t e he ih.2]; exact ih
  | Scan t fuel res _ hres ih =>
    exact ⟨by rw [(Scan_frame debug src fuel t res hres).1]; exact ih.1,
      (Scan_spec debug src fuel t res hres).2 e he ih.2⟩

/-- The value of `Config.Debug` matters to a later `Scan`: with it off a fresh
scanner over a chunk whose first header has page type 9 ends its first `Scan`
holding the real error that follows; a `Scan` with it on then panics on the
page type. -/
theorem Scan_panics_when_debug_is_switched_on :
    Scan false unknownTypeChunk 2 (NewColumnScanner 0 0)
        = some (Result.returned false ⟨10, 0, some (Error.other 1)⟩)
      ∧ Scan true unknownTypeChunk 1 ⟨10, 0, some (Error.other 1)⟩
        = some (Result.panicked ScanPanic.unsupportedPageHeaderType
            ⟨10, 0, some (Error.other 1)⟩) := by
  decide

/-- C13. `Config.Debug` keeping one value, in every state `s` a scanner reaches
through calls of `Scan`, once the error slot holds a real error `e` (neither
nil nor `io.EOF`), every state `t` later operations lead to (`setErr` with any
error, `Scan`) holds `e`: `Err()` returns `e`, `setErr` changes nothing, and
`Scan()` returns false there, with `e` still in the slot: it returns within the
calls of `nextPage` an earlier `Scan` needed, and no amount of fuel makes it
panic or return true. -/
theorem real_error_is_sticky (debug : Bool) (src : Source) (s t : ColumnScanner) (e : Error)
    (he : e ≠ Error.EOF) (hreach : Reachable debug src s) (hs : s.err = some e)
    (hl : Afterwards debug src s t) :
    t.err = some e
      ∧ Err t = some e
      ∧ (∀ x, setErr t x = t)
      ∧ (∃ fuel u, Scan debug src fuel t = some (Result.returned false u)
          ∧ u.err = some e ∧ Err u = some e)
      ∧ (∀ fuel res, Scan debug src fuel t = some res →
          ∃ u, res = Result.returned false u ∧ u.err = some e) := by
  have hf := afterwards_frame debug src s t e he hs hl
  obtain ⟨f0, s0, b0, t0, h0, h1⟩ := reachable_has_returned debug src s hreach e hs
  have hrep := Scan_replay debug src f0 s0 b0 t0 h1 t (by rw [hf.1, h0])
  refine ⟨hf.2, Err_of_real t e he hf.2, fun x => setErr_of_real t e he hf.2 x, ?_, ?_⟩
  · obtain ⟨u, hu⟩ := hrep.1
    have hue : u.err = some e := (Scan_spec debug src f0 t _ hu).2 e he hf.2
    exact ⟨f0, u, hu, hue, Err_of_real u e he hue⟩
  · intro fuel res hres
    obtain ⟨u, hu⟩ := hrep.2 fuel res hres
    refine ⟨u, hu, ?_⟩
    have := (Scan_spec debug src fuel t res hres).2 e he hf.2
    rw [hu] at this
    exact this

theorem real_error_is_sticky_witness :
    Error.other 1 ≠ Error.EOF
      ∧ Reachable true (onePageChunk 12) ⟨20, 4, some (Error.other 1)⟩
      ∧ Afterwards true (onePageChunk 12) ⟨20, 4, some (Error.other 1)⟩
          (setErr ⟨20, 4, some (Error.other 1)⟩ (some Error.EOF))
      ∧ Err (setErr ⟨20, 4, some (Error.other 1)⟩ (some Error.EOF)) = some (Error.other 1)
      ∧ ∃ fuel u,
          Scan true (onePageChunk 12) fuel (setErr ⟨20, 4, some (Error.other 1)⟩ (some Error.EOF))
            = some (Result.returned false u)
          ∧ u.err = some (Error.other 1) ∧ Err u = some (Error.other 1) :=
  have h1 : Scan true (onePageChunk 12) 2 (NewColumnScanner 0 4)
      = some (Result.returned false ⟨20, 4, some (Error.other 1)⟩) := by decide
  have h2 : Scan true (onePageChunk 12) 2 ⟨20, 4, some (Error.other 1)⟩
      = some (Result.returned false ⟨20, 4, some (Error.other 1)⟩) := by decide
  have hreach : Reachable true (onePageChunk 12) ⟨20, 4, some (Error.other 1)⟩ :=
    Reachable.Scan (NewColumnScanner 0 4) 2 _ (Reachable.fresh 0 4) h1
  have hl : Afterwards true (onePageChunk 12) ⟨20, 4, some (Error.other 1)⟩
      (setErr ⟨20, 4, some (Error.other 1)⟩ (some Error.EOF)) :=
    Afterwards.setErr _ _ _ (Afterwards.Scan _ _ 2 _ (Afterwards.refl _) h2)
  have h := real_error_is_sticky true (onePageChunk 12) ⟨20, 4, some (Error.other 1)⟩ _
    (Error.other 1) (by decide) hreach rfl hl
  ⟨by decide, hreach, hl, h.2.1, h.2.2.2.1⟩

theorem scanLoop_accepted (debug : Bool) (src : Source) (off : Int) (k p q : Nat)
    (hp : AcceptedPages debug src off k p q) :
    ∀ fuel, scanLoop debug src (k + fuel) ⟨p, off, none⟩
      = scanLoop debug src fuel ⟨q, off, none⟩ := by
  induction hp with
  | nil p => intro fuel; rw [Nat.zero_add]
  | cons k p p1 q hnext _ ih =>
    intro fuel
    have e : k + 1 + fuel = (k + fuel) + 1 := by omega
    rw [e, scanLoop, hnext]
    exact ih fuel

/-- C14. For a fresh scanner whose seek succeeds, if after any number `k` of
pages `nextPage` accepts (none, one or more) the page-header read reports
`io.EOF`, `Scan` returns false and `Err()` then returns nil; for every scanner
`Err()` returns nil exactly when the slot is empty or holds `io.EOF`, and the
stored error otherwise. -/
theorem Scan_clean_end_of_stream (debug : Bool) (src : Source) (k fuel pos0 pos q pos1 : Nat)
    (off : Int) (hseek : src.Seek off = Except.ok pos)
    (hpages : AcceptedPages debug src off k pos q)
    (hread : src.headerRead q = (Except.error Error.EOF, pos1)) :
    Scan debug src (k + (fuel + 1)) (NewColumnScanner pos0 off)
        = some (Result.returned false ⟨pos1, off, some Error.EOF⟩)
      ∧ Err ⟨pos1, off, some Error.EOF⟩ = none
      ∧ (∀ s : ColumnScanner,
          (Err s = none ↔ (s.err = none ∨ s.err = some Error.EOF))
            ∧ (¬ (s.err = none ∨ s.err = some Error.EOF) → Err s = s.err)) := by
  refine ⟨?_, rfl, ?_⟩
  · have h1 : Scan debug src (k + (fuel + 1)) (NewColumnScanner pos0 off)
        = scanLoop debug src (k + (fuel + 1)) ⟨pos, off, none⟩ := by
      simp [Scan, NewColumnScanner, hseek]
    rw [h1, scanLoop_accepted debug src off k pos q hpages (fuel + 1)]
    simp [scanLoop, nextPage, hread, setErr]
  · intro s
    unfold Err
    by_cases h : s.err = some Error.EOF
    · simp [h]
    · simp [h]

theorem Scan_clean_end_of_stream_witness :
    (onePageChunk 0).Seek 4 = Except.ok 4
      ∧ AcceptedPages true (onePageChunk 0) 4 1 4 20
      ∧ (onePageChunk 0).headerRead 20 = (Except.error Error.EOF, 20)
      ∧ Scan true (onePageChunk 0) (1 + (0 + 1)) (NewColumnScanner 0 4)
          = some (Result.returned false ⟨20, 4, some Error.EOF⟩)
      ∧ Err ⟨20, 4, some Error.EOF⟩ = none :=
  have hp : AcceptedPages true (onePageChunk 0) 4 1 4 20 :=
    AcceptedPages.cons 0 4 20 20 (by decide) (AcceptedPages.nil 20)
  have h := Scan_clean_end_of_stream true (onePageChunk 0) 1 0 0 4 20 20 4 rfl hp rfl
  ⟨rfl, hp, rfl, h.1, h.2.1⟩

/-- C15. On a successfully parsed header of page type 9, `nextPage` panics
when `Config.Debug` is on and returns nil when it is off; in neither case does
it return an error. -/
theorem nextPage_unknown_page_type :
    nextPage true unknownTypeChunk (NewColumnScanner 0 0)
        = Result.panicked ScanPanic.unsupportedPageHeaderType ⟨10, 0, none⟩
      ∧ nextPage false unknownTypeChunk (NewColumnScanner 0 0)
        = Result.returned none ⟨10, 0, none⟩ := by
  decide

/-- C16. On a page whose header ends at offset 20 and declares a compressed
size of 12, a successful `nextPage` leaves the cursor at 20, the position after
the header, under either value of `Config.Debug`; the next page boundary is
at 32. -/
theorem nextPage_leaves_cursor_after_header :
    nextPage true (onePageChunk 12) ⟨4, 4, none⟩ = Result.returned none ⟨20, 4, none⟩
      ∧ nextPage false (onePageChunk 12) ⟨4, 4, none⟩ = Result.returned none ⟨20, 4, none⟩
      ∧ ((onePageChunk 12).headerRead 4).1.toOption.map PageHeader.CompressedPageSize
          = some 12 := by
  decide

/-- C17 (as the claim states it, refuted). When the seek fails with `io.EOF`,
`Scan` returns false and `Err()` then returns nil, not the error of the seek. -/
theorem Err_nil_after_seek_failing_with_EOF :
    Scan true (failingSeek Error.EOF) 0 (NewColumnScanner 0 4)
        = some (Result.returned false ⟨0, 4, some Error.EOF⟩)
      ∧ Err ⟨0, 4, some Error.EOF⟩ = none
      ∧ Err ⟨0, 4, some Error.EOF⟩ ≠ some Error.EOF := by
  decide

/-- C17 (amended). For a fresh scanner, if seeking to `DataPageOffset` fails
with an error `e` other than `io.EOF`, `Scan` returns false with `e` in the
error slot and the cursor where it was, without any call of `nextPage` (no
fuel is needed, and what `header.Read` would do is immaterial), and `Err()`
returns `e` then and after any later operations. -/
theorem Scan_seek_failure (debug : Bool) (src : Source) (fuel pos0 : Nat) (off : Int)
    (e : Error) (hseek : src.Seek off = Except.error e) (he : e ≠ Error.EOF) :
    Scan debug src fuel (NewColumnScanner pos0 off)
        = some (Result.returned false ⟨pos0, off, some e⟩)
      ∧ Scan debug src 0 (NewColumnScanner pos0 off)
        = some (Result.returned false ⟨pos0, off, some e⟩)
      ∧ (∀ rd, Scan debug ⟨src.Seek, rd⟩ fuel (NewColumnScanner pos0 off)
          = some (Result.returned false ⟨pos0, off, some e⟩))
      ∧ Err ⟨pos0, off, some e⟩ = some e
      ∧ (∀ t, Later src ⟨pos0, off, some e⟩ t → Err t = some e) := by
  have h : ∀ (f : Nat) (rd : Nat → Except Error PageHeader × Nat),
      Scan debug ⟨src.Seek, rd⟩ f (NewColumnScanner pos0 off)
        = some (Result.returned false ⟨pos0, off, some e⟩) := by
    intro f rd
    simp [Scan, NewColumnScanner, hseek, setErr]
  refine ⟨h fuel src.headerRead, h 0 src.headerRead, h fuel, Err_of_real _ e he rfl, ?_⟩
  intro t hl
  exact Err_of_real t e he (later_err src _ t e he rfl hl)

theorem Scan_seek_failure_witness :
    (failingSeek (Error.other 7)).Seek 4 = Except.error (Error.other 7)
      ∧ Error.other 7 ≠ Error.EOF
      ∧ Scan true (failingSeek (Error.other 7)) 3 (NewColumnScanner 0 4)
          = some (Result.returned false ⟨0, 4, some (Error.other 7)⟩)
      ∧ Err ⟨0, 4, some (Error.other 7)⟩ = some (Error.other 7) :=
  have h := Scan_seek_failure true (failingSeek (Error.other 7)) 3 0 4 (Error.other 7) rfl
    (by decide)
  ⟨rfl, by decide, h.1, h.2.2.2.1⟩

end parquet
